import Mathlib

/-
Verification development for the logcat binary-stream decoder and the
line-feed-correcting byte transform of this repository.

The decoder (`LogcatParser` in the source) is embedded as a state machine over
`PState`: the internal byte buffer, the read cursor, the pending-read-size
(`bytesToRead`), the stream-ended flag and the not-yet-delivered input chunks.
Bytes are modelled as natural numbers; little-endian integer fields are decoded
with explicit arithmetic.  The asynchronous exact-size read is modelled by
`read`: its fast path returns buffered bytes at once, otherwise it suspends,
which in this embedding means the `pump` function delivers pending chunks one
at a time through `onData` (exactly the source's data handler) until the
recorded pending-read-size is satisfied or the stream ends (`onEnd`).
The record-decode loop `asIterator` follows the source line by line, with an
explicit fuel argument for termination; fuel exhaustion is a distinguished
outcome that never occurs on the runs the theorems below talk about.

The `time` field of the source's `LogEntry` (a `Date` derived from `sec` and
`nsec`) is not modelled: it is a pure function of the `sec`/`nsec` fields
retained in the record.
-/

namespace Logcat

/-- Decoder errors surfaced by the embedded parser. -/
inductive PError where
  | insufficientBytes
  | invalidHeaderSize (n : Nat)
  deriving DecidableEq, Repr

/-- Result of a fallible parsing step. -/
inductive PRes (α : Type) where
  | ok (a : α)
  | err (e : PError)
  | fuelOut
  deriving DecidableEq, Repr

/-- Parser state: internal buffer, read cursor, pending-read-size,
stream-ended flag, and the input chunks not yet delivered. -/
structure PState where
  buffer : List Nat
  cursor : Nat
  bytesToRead : Nat
  ended : Bool
  pending : List (List Nat)
  deriving DecidableEq, Repr

/-- `bytesAvailable` getter of the source: buffer length minus cursor. -/
def bytesAvailable (s : PState) : Nat := s.buffer.length - s.cursor

/-- The unread part of the physical buffer. -/
def availList (s : PState) : List Nat := s.buffer.drop s.cursor

/-- All bytes still to be consumed: unread buffer plus undelivered chunks. -/
def rest (s : PState) : List Nat := availList s ++ s.pending.flatten

/-- Total count of bytes still to be consumed. -/
def restTotal (s : PState) : Nat :=
  bytesAvailable s + (s.pending.map List.length).sum

/-- `clearBuffer` of the source. -/
def clearBuffer (s : PState) : PState :=
  { s with bytesToRead := 0, cursor := 0, buffer := [] }

/-- `rollBuffer` of the source: physically drop the consumed prefix. -/
def rollBuffer (s : PState) : PState :=
  { s with buffer := s.buffer.drop s.cursor, cursor := 0 }

/-- `onData` of the source: append the chunk; if enough bytes are now
available for the suspended read, reset the pending-read-size (and notify). -/
def onData (s : PState) (data : List Nat) : PState :=
  let b := s.buffer ++ data
  if b.length - s.cursor ≥ s.bytesToRead then
    { s with buffer := b, bytesToRead := 0 }
  else
    { s with buffer := b }

/-- `onEnd` of the source: set the ended flag (and abort the waiter). -/
def onEnd (s : PState) : PState := { s with ended := true }

/-- `_read` of the source: slice the next `size` bytes, advance the cursor. -/
def _read (s : PState) (size : Nat) : List Nat × PState :=
  ((s.buffer.drop s.cursor).take size, { s with cursor := s.cursor + size })

/-- Delivery loop while a read of `n` bytes is suspended, by recursion on the
undelivered chunks (always the `pending` field of the state argument): chunks
arrive one by one through `onData` until the waiter is notified
(pending-read-size reset to zero) or the input ends, which aborts the read
with `insufficientBytes`. -/
def pumpAux (n : Nat) : List (List Nat) → PState → PRes (List Nat) × PState
  | [], s => (.err .insufficientBytes, onEnd s)
  | c :: cs, s =>
    let s' := onData { s with pending := cs } c
    if s'.bytesToRead = 0 then
      let (d, s'') := _read s' n
      (.ok d, s'')
    else pumpAux n cs s'

/-- Chunk delivery for a suspended read of `n` bytes. -/
def pump (s : PState) (n : Nat) : PRes (List Nat) × PState :=
  pumpAux n s.pending s

/-- `read` of the source: fast path when enough bytes are buffered; immediate
failure when the stream already ended; otherwise record the pending-read-size
and suspend (modelled by `pump`). -/
def read (s : PState) (n : Nat) : PRes (List Nat) × PState :=
  if bytesAvailable s ≥ n then
    let (d, s') := _read s n
    (.ok d, s')
  else if s.ended then (.err .insufficientBytes, s)
  else pump { s with bytesToRead := n } n

/-- Little-endian value of a byte list. -/
def leVal : List Nat → Nat
  | [] => 0
  | b :: bs => b + 256 * leVal bs

/-- Reinterpret a 32-bit unsigned value as signed (two's complement). -/
def toSigned32 (n : Nat) : Int :=
  if n < 2147483648 then (n : Int) else (n : Int) - 4294967296

/-- Map the value component of a read result. -/
def mapVal {α β : Type} (f : α → β) : PRes α × PState → PRes β × PState
  | (.ok a, s) => (.ok (f a), s)
  | (.err e, s) => (.err e, s)
  | (.fuelOut, s) => (.fuelOut, s)

/-- `readUInt16` of the source. -/
def readU16 (s : PState) : PRes Nat × PState := mapVal leVal (read s 2)

/-- `readInt32` of the source. -/
def readI32 (s : PState) : PRes Int × PState :=
  mapVal (fun d => toSigned32 (leVal d)) (read s 4)

/-- The optional id field: read a `uint32` only when the header size is 24. -/
def readIdOpt (hs : Nat) (s : PState) : PRes (Option Nat) × PState :=
  if hs = 24 then mapVal (fun d => some (leVal d)) (read s 4)
  else (.ok none, s)

/-- Sequencing of fallible parsing steps. -/
def pstep {α β : Type} (m : PRes α × PState) (f : α → PState → PRes β × PState) :
    PRes β × PState :=
  match m with
  | (.ok a, s) => f a s
  | (.err e, s) => (.err e, s)
  | (.fuelOut, s) => (.fuelOut, s)

@[simp] theorem pstep_ok {α β : Type} (a : α) (s : PState)
    (f : α → PState → PRes β × PState) : pstep (.ok a, s) f = f a s := rfl

@[simp] theorem pstep_err {α β : Type} (e : PError) (s : PState)
    (f : α → PState → PRes β × PState) : pstep (.err e, s) f = (.err e, s) := rfl

@[simp] theorem pstep_fuelOut {α β : Type} (s : PState)
    (f : α → PState → PRes β × PState) : pstep (.fuelOut, s) f = (.fuelOut, s) := rfl

/-- The zero-skipping priority scan of the source (`while (priority == 0)`),
with explicit fuel.  `pr` is the last byte looked at (`none` when the index was
out of bounds), `pIdx` the next index to look at.  When the incremented index
reaches `len`, `len` more bytes are pulled and appended to the payload. -/
def scanLoop : Nat → Option Nat → Nat → List Nat → Nat → PState →
    PRes (Option Nat × Nat × List Nat) × PState
  | 0, _, _, _, _, s => (.fuelOut, s)
  | fuel + 1, pr, pIdx, payload, len, s =>
    match pr with
    | some 0 =>
      let pr' := payload.get? pIdx
      let pIdx' := pIdx + 1
      if pIdx' ≥ len then
        match read s len with
        | (.ok d, s') => scanLoop fuel pr' pIdx' (payload ++ d) len s'
        | (.err e, s') => (.err e, s')
        | (.fuelOut, s') => (.fuelOut, s')
      else scanLoop fuel pr' pIdx' payload len s
    | _ => (.ok (pr, pIdx, payload), s)

/-- Values produced by the read phase of one decode iteration. -/
structure RawEntry where
  hs : Nat
  pid : Int
  tid : Int
  sec : Int
  nsec : Int
  idv : Option Nat
  payload : List Nat
  pIdx : Nat
  pr : Option Nat
  deriving DecidableEq, Repr

/-- The read phase of one decode-loop iteration, after the payload length has
been read: header size (validity check included), the four signed integer
fields, the optional id field, the payload, the priority scan and the final
padding-compensation pull.  No byte is physically discarded here. -/
def parseReads (len : Nat) (s : PState) : PRes RawEntry × PState :=
  pstep (readU16 s) fun hs s =>
  if hs ≠ 24 ∧ hs ≠ 0 then (.err (.invalidHeaderSize hs), s)
  else
  pstep (readI32 s) fun pid s =>
  pstep (readI32 s) fun tid s =>
  pstep (readI32 s) fun sec s =>
  pstep (readI32 s) fun nsec s =>
  pstep (readIdOpt hs s) fun idv s =>
  pstep (read s len) fun payload s =>
  pstep (scanLoop (restTotal s + len + 2) (payload.get? 0) 1 payload len s)
    fun scr s =>
  pstep (if scr.2.1 > 1 then read s (scr.2.1 - 1) else (.ok [], s)) fun extra s =>
  (.ok ⟨hs, pid, tid, sec, nsec, idv, scr.2.2 ++ extra, scr.2.1, scr.1⟩, s)

/-- A fully decoded log record (`LogEntry` of the source; the derived `time`
field is omitted, and `priority` is `none` when the scan indexed past the end
of the payload, the source's `undefined`). -/
structure LogEntry where
  pid : Int
  tid : Int
  sec : Int
  nsec : Int
  id? : Option Nat
  priority : Option Nat
  tag : List Nat
  msg : List Nat
  deriving DecidableEq, Repr

/-- JavaScript-style slice: bytes of positions `[a, b)`, clamped. -/
def slice (l : List Nat) (a b : Nat) : List Nat := (l.drop a).take (b - a)

/-- First index `≥ i` holding a zero byte (`Buffer.indexOf(0, i)`). -/
def firstZero? (l : List Nat) (i : Nat) : Option Nat :=
  if h : i < l.length then
    if l.get? i = some 0 then some i else firstZero? l (i + 1)
  else none
  termination_by l.length - i

/-- The separator position: first zero at or after `pIdx`, or the payload
length when there is none. -/
def sepIndex (payload : List Nat) (pIdx : Nat) : Nat :=
  match firstZero? payload pIdx with
  | some i => i
  | none => payload.length

/-- End position of the message slice: the payload length, minus one when the
last payload byte is a zero terminator. -/
def msgEnd (payload : List Nat) : Nat :=
  if payload.getLast? = some 0 then payload.length - 1 else payload.length

/-- Assemble the record from the values of the read phase, exactly as the
source does after `rollBuffer`: `id` is attached only when truthy (a zero id
is dropped), `tag` is the slice up to the first separator zero, `msg` the
slice after it with one trailing zero stripped. -/
def mkEntry (raw : RawEntry) : LogEntry :=
  let sep := sepIndex raw.payload raw.pIdx
  { pid := raw.pid, tid := raw.tid, sec := raw.sec, nsec := raw.nsec
    id? := match raw.idv with
      | some v => if v = 0 then none else some v
      | none => none
    priority := raw.pr
    tag := slice raw.payload raw.pIdx sep
    msg := slice raw.payload (sep + 1) (msgEnd raw.payload) }

/-- One decode-loop iteration after the payload-length read: the read phase,
then the buffer roll at the frame boundary, then the pure record assembly. -/
def parseRest (len : Nat) (s : PState) : PRes LogEntry × PState :=
  pstep (parseReads len s) fun raw s => (.ok (mkEntry raw), rollBuffer s)

/-- How the decode sequence ended. -/
inductive Termination where
  | clean
  | swallowed (e : PError)
  | raised (e : PError)
  | fuelOut
  deriving DecidableEq, Repr

/-- Exit of the loop on an error: swallowed (and the buffer cleared by the
code after the catch) under `noError`, propagated (skipping that clear)
otherwise. -/
def finishErr (noError : Bool) (e : PError) (s : PState) :
    List LogEntry × Termination × PState :=
  if noError then ([], .swallowed e, clearBuffer s) else ([], .raised e, s)

/-- The record-decode loop of `asIterator`, one constructor of fuel per
iteration.  The payload-length read failing with `insufficientBytes` while
zero bytes are buffered breaks the loop (clean end of stream); an invalid
header size under `tryRecover` clears the buffer and breaks; other failures
propagate or are swallowed per `noError`. -/
def go (noError tryRecover : Bool) : Nat → PState → List LogEntry × Termination × PState
  | 0, s => ([], .fuelOut, s)
  | fuel + 1, s =>
    if s.ended = false ∨ bytesAvailable s ≠ 0 then
      match readU16 s with
      | (.err .insufficientBytes, s') =>
        if bytesAvailable s' = 0 then ([], .clean, clearBuffer s')
        else finishErr noError .insufficientBytes s'
      | (.err e, s') => finishErr noError e s'
      | (.fuelOut, s') => ([], .fuelOut, s')
      | (.ok len, s') =>
        match parseRest len s' with
        | (.ok e, s'') =>
          let r := go noError tryRecover fuel s''
          (e :: r.1, r.2.1, r.2.2)
        | (.err (.invalidHeaderSize h), s'') =>
          if tryRecover then ([], .clean, clearBuffer (clearBuffer s''))
          else finishErr noError (.invalidHeaderSize h) s''
        | (.err e, s'') => finishErr noError e s''
        | (.fuelOut, s'') => ([], .fuelOut, s'')
    else ([], .clean, clearBuffer s)

/-- Initial parser state for a given list of input chunks. -/
def initState (cs : List (List Nat)) : PState :=
  { buffer := [], cursor := 0, bytesToRead := 0, ended := false, pending := cs }

/-- Total byte count of a chunk list. -/
def sumLens (cs : List (List Nat)) : Nat := (cs.map List.length).sum

/-- Run the decode loop on the given chunks with ample fuel. -/
def runParser (cs : List (List Nat)) (noError tryRecover : Bool) :
    List LogEntry × Termination × PState :=
  go noError tryRecover (sumLens cs + 1) (initState cs)

/- Wire-format frames used to state stream-level claims. -/

/-- A frame as laid out on the wire: a header-size selector, the four raw
unsigned 32-bit header fields, the id field (emitted only for header size 24)
and the payload bytes. -/
structure Frame where
  headerSize : Nat
  pid : Nat
  tid : Nat
  sec : Nat
  nsec : Nat
  id : Nat
  payload : List Nat
  deriving DecidableEq, Repr

/-- 2-byte little-endian encoding. -/
def enc16 (n : Nat) : List Nat := [n % 256, n / 256 % 256]

/-- 4-byte little-endian encoding. -/
def enc32 (n : Nat) : List Nat :=
  [n % 256, n / 256 % 256, n / 65536 % 256, n / 16777216 % 256]

/-- Encoding of everything after the payload-length field. -/
def encTail (f : Frame) : List Nat :=
  enc16 f.headerSize ++ enc32 f.pid ++ enc32 f.tid ++ enc32 f.sec ++
    enc32 f.nsec ++ (if f.headerSize = 24 then enc32 f.id else []) ++ f.payload

/-- Full wire encoding of a frame. -/
def encodeFrame (f : Frame) : List Nat := enc16 f.payload.length ++ encTail f

/-- Wire encoding of consecutive frames. -/
def encodeFrames (fs : List Frame) : List Nat := (fs.map encodeFrame).flatten

/-- Well-formed frame: a valid header-size selector, fields that fit their
wire width, payload bytes, and a first payload byte that is a valid non-zero
priority. -/
def WFFrame (f : Frame) : Prop :=
  (f.headerSize = 0 ∨ f.headerSize = 24) ∧
  f.payload.length < 65536 ∧
  f.pid < 4294967296 ∧ f.tid < 4294967296 ∧
  f.sec < 4294967296 ∧ f.nsec < 4294967296 ∧ f.id < 4294967296 ∧
  (∀ b ∈ f.payload, b < 256) ∧
  (∃ c, f.payload.head? = some c ∧ 0 < c ∧ c ≤ 7)

instance (f : Frame) : Decidable (WFFrame f) := by
  unfold WFFrame; infer_instance

/-- The record the decoder produces for a well-formed frame. -/
def recordOf (f : Frame) : LogEntry :=
  { pid := toSigned32 f.pid, tid := toSigned32 f.tid
    sec := toSigned32 f.sec, nsec := toSigned32 f.nsec
    id? := if f.headerSize = 24 then (if f.id = 0 then none else some f.id) else none
    priority := f.payload.head?
    tag := slice f.payload 1 (sepIndex f.payload 1)
    msg := slice f.payload (sepIndex f.payload 1 + 1) (msgEnd f.payload) }

/- Basic facts about the parser state and the exact-size read. -/

/-- Invariant of reachable states: the cursor never exceeds the buffer length,
and once the ended flag is set no chunk remains undelivered. -/
def GoodState (s : PState) : Prop :=
  s.cursor ≤ s.buffer.length ∧ (s.ended = true → s.pending = [])

instance (s : PState) : Decidable (GoodState s) := by
  unfold GoodState; infer_instance

theorem availList_length (s : PState) : (availList s).length = bytesAvailable s := by
  simp [availList, bytesAvailable]

theorem rest_length (s : PState) : (rest s).length = restTotal s := by
  simp [rest, restTotal, availList_length, List.length_flatten]

theorem avail_le_rest (s : PState) : bytesAvailable s ≤ (rest s).length := by
  rw [rest, List.length_append, availList_length]; omega

theorem rest_of_ended (s : PState) (hg : GoodState s) (he : s.ended = true) :
    rest s = availList s := by
  simp [rest, hg.2 he]

/-- Outcome of the delivery loop when enough bytes exist in total: the read is
woken and returns exactly the next `n` bytes of the remaining stream; the
buffer is only appended to and the ended flag stays unset. -/
theorem pumpAux_ok (n : Nat) :
    ∀ (ps : List (List Nat)) (B : List Nat) (cur : Nat),
    cur ≤ B.length → B.length - cur < n →
    n ≤ (B.drop cur ++ ps.flatten).length →
    ∃ s', pumpAux n ps ⟨B, cur, n, false, ps⟩ =
        (.ok ((B.drop cur ++ ps.flatten).take n), s') ∧
      rest s' = (B.drop cur ++ ps.flatten).drop n ∧ s'.ended = false ∧
      GoodState s' ∧ B <+: s'.buffer ∧ cur ≤ s'.cursor ∧ s'.bytesToRead = 0 := by
  intro ps
  induction ps with
  | nil =>
    intro B cur hc hav hn
    exfalso
    simp [List.length_drop] at hn
    omega
  | cons c cs ih =>
    intro B cur hc hav hn
    have hBc : (B ++ c).length = B.length + c.length := by simp
    have hdl : (B.drop cur).length = B.length - cur := by simp
    have hdropc : (B ++ c).drop cur = B.drop cur ++ c := by
      rw [List.drop_append_eq_append_drop, Nat.sub_eq_zero_of_le hc, List.drop_zero]
    have hjoin : (B ++ c).drop cur ++ cs.flatten
        = B.drop cur ++ (c :: cs).flatten := by
      rw [hdropc]; simp [List.append_assoc]
    by_cases hwake : (B ++ c).length - cur ≥ n
    · have hlen : n ≤ (B.drop cur ++ c).length := by
        have : (B.drop cur ++ c).length = (B.drop cur).length + c.length := by simp
        omega
      have hflat : (c :: cs).flatten = c ++ cs.flatten := rfl
      have hdata : onData ⟨B, cur, n, false, cs⟩ c = ⟨B ++ c, cur, 0, false, cs⟩ := by
        simp only [onData]
        rw [if_pos hwake]
      have hstep : pumpAux n (c :: cs) ⟨B, cur, n, false, c :: cs⟩ =
          (.ok (((B ++ c).drop cur).take n), ⟨B ++ c, cur + n, 0, false, cs⟩) := by
        simp only [pumpAux]
        rw [hdata]
        simp [_read]
      have htake : (B.drop cur ++ (c :: cs).flatten).take n
          = ((B ++ c).drop cur).take n := by
        rw [hdropc, hflat, ← List.append_assoc, List.take_append_eq_append_take,
          Nat.sub_eq_zero_of_le hlen, List.take_zero, List.append_nil]
      have hdropn : (B.drop cur ++ (c :: cs).flatten).drop n
          = (B ++ c).drop (cur + n) ++ cs.flatten := by
        rw [hflat, ← List.append_assoc, List.drop_append_eq_append_drop,
          Nat.sub_eq_zero_of_le hlen, List.drop_zero]
        congr 1
        rw [← hdropc, List.drop_drop, Nat.add_comm]
      refine ⟨⟨B ++ c, cur + n, 0, false, cs⟩, ?_, ?_, rfl, ⟨?_, ?_⟩, ⟨c, rfl⟩,
        ?_, rfl⟩
      · rw [hstep, htake]
      · show (B ++ c).drop (cur + n) ++ cs.flatten = _
        rw [hdropn]
      · show cur + n ≤ (B ++ c).length
        omega
      · intro h; simp at h
      · show cur ≤ cur + n
        omega
    · push_neg at hwake
      have hn0 : ¬ (n = 0) := by omega
      have hdata : onData ⟨B, cur, n, false, cs⟩ c = ⟨B ++ c, cur, n, false, cs⟩ := by
        simp only [onData]
        rw [if_neg (by omega)]
      have hstep : pumpAux n (c :: cs) ⟨B, cur, n, false, c :: cs⟩ =
          pumpAux n cs ⟨B ++ c, cur, n, false, cs⟩ := by
        simp only [pumpAux]
        rw [hdata]
        simp [hn0]
      have hcur : cur ≤ (B ++ c).length := by omega
      obtain ⟨s', h1, h2, h3, h4, h5, h6, h7⟩ :=
        ih (B ++ c) cur hcur (by omega) (by rw [hjoin]; exact hn)
      exact ⟨s', by rw [hstep, h1, hjoin], by rw [h2, hjoin], h3, h4,
        (List.prefix_append B c).trans h5, h6, h7⟩

/-- Outcome of the delivery loop when the stream ends first: every chunk has
been appended to the buffer, the ended flag is set, the pending-read-size is
still recorded, and the read fails with `insufficientBytes`. -/
theorem pumpAux_err (n : Nat) :
    ∀ (ps : List (List Nat)) (B : List Nat) (cur : Nat),
    cur ≤ B.length → B.length - cur < n →
    (B.drop cur ++ ps.flatten).length < n →
    pumpAux n ps ⟨B, cur, n, false, ps⟩ =
      (.err .insufficientBytes, ⟨B ++ ps.flatten, cur, n, true, []⟩) := by
  intro ps
  induction ps with
  | nil =>
    intro B cur hc hav hn
    simp [pumpAux, onEnd]
  | cons c cs ih =>
    intro B cur hc hav hn
    have hBc : (B ++ c).length = B.length + c.length := by simp
    have hdl : (B.drop cur).length = B.length - cur := by simp
    have htot : (B.drop cur ++ (c :: cs).flatten).length
        = (B.drop cur).length + (c.length + cs.flatten.length) := by simp
    have hwake : ¬ ((B ++ c).length - cur ≥ n) := by omega
    have hn0 : ¬ (n = 0) := by omega
    have hdata : onData ⟨B, cur, n, false, cs⟩ c = ⟨B ++ c, cur, n, false, cs⟩ := by
      simp only [onData]
      rw [if_neg (by omega)]
    have hstep : pumpAux n (c :: cs) ⟨B, cur, n, false, c :: cs⟩ =
        pumpAux n cs ⟨B ++ c, cur, n, false, cs⟩ := by
      simp only [pumpAux]
      rw [hdata]
      simp [hn0]
    have hcur : cur ≤ (B ++ c).length := by omega
    have hdropc : (B ++ c).drop cur = B.drop cur ++ c := by
      rw [List.drop_append_eq_append_drop, Nat.sub_eq_zero_of_le hc, List.drop_zero]
    have h3 : ((B ++ c).drop cur ++ cs.flatten).length < n := by
      have : ((B ++ c).drop cur ++ cs.flatten).length
          = ((B ++ c).drop cur).length + cs.flatten.length := by simp
      have h4 : ((B ++ c).drop cur).length = (B ++ c).length - cur := by simp
      omega
    have := ih (B ++ c) cur hcur (by omega) h3
    rw [hstep, this]
    simp [List.append_assoc]

/-- Successful exact-size read: when the remaining stream holds at least `n`
bytes, `read` returns exactly the next `n` of them; the buffer is only
appended to, the cursor only advances, and the ended flag is unchanged. -/
theorem read_ok (s : PState) (n : Nat) (hg : GoodState s)
    (hn : n ≤ (rest s).length) :
    ∃ s', read s n = (.ok ((rest s).take n), s') ∧ rest s' = (rest s).drop n ∧
      GoodState s' ∧ s'.ended = s.ended ∧ s.buffer <+: s'.buffer ∧
      s.cursor ≤ s'.cursor := by
  obtain ⟨B, cur, btr, e, ps⟩ := s
  obtain ⟨hc, hp⟩ := hg
  simp only [] at hc hp
  have hdl : (B.drop cur).length = B.length - cur := by simp
  have hrlen : (rest ⟨B, cur, btr, e, ps⟩).length
      = (B.drop cur).length + ps.flatten.length := by
    show (B.drop cur ++ ps.flatten).length = _
    simp
  by_cases hfast : bytesAvailable ⟨B, cur, btr, e, ps⟩ ≥ n
  · have hav : n ≤ B.length - cur := hfast
    have hlen : n ≤ (B.drop cur).length := by omega
    have htake : (rest ⟨B, cur, btr, e, ps⟩).take n = (B.drop cur).take n := by
      show (B.drop cur ++ ps.flatten).take n = _
      rw [List.take_append_eq_append_take, Nat.sub_eq_zero_of_le hlen,
        List.take_zero, List.append_nil]
    have hdrop : (rest ⟨B, cur, btr, e, ps⟩).drop n
        = B.drop (cur + n) ++ ps.flatten := by
      show (B.drop cur ++ ps.flatten).drop n = _
      rw [List.drop_append_eq_append_drop, Nat.sub_eq_zero_of_le hlen,
        List.drop_zero, List.drop_drop, Nat.add_comm]
    refine ⟨⟨B, cur + n, btr, e, ps⟩, ?_, ?_, ⟨?_, hp⟩, rfl,
      List.prefix_refl B, ?_⟩
    · simp only [read]
      rw [if_pos hfast, htake]
      rfl
    · show B.drop (cur + n) ++ ps.flatten = _
      rw [hdrop]
    · show cur + n ≤ B.length
      omega
    · show cur ≤ cur + n
      omega
  · have he : e = false := by
      by_contra hne
      have he' : e = true := by revert hne; cases e <;> simp
      have hps : ps = [] := hp he'
      subst hps
      refine hfast ?_
      show n ≤ B.length - cur
      simp only [List.flatten_nil, List.length_nil] at hrlen
      omega
    subst he
    have hstep : read ⟨B, cur, btr, false, ps⟩ n
        = pumpAux n ps ⟨B, cur, n, false, ps⟩ := by
      simp only [read]
      rw [if_neg hfast]
      rfl
    have hav : B.length - cur < n := by
      have : ¬ (n ≤ B.length - cur) := hfast
      omega
    obtain ⟨s', h1, h2, h3, h4, h5, h6, h7⟩ := pumpAux_ok n ps B cur hc hav hn
    refine ⟨s', ?_, h2, h4, h3, h5, h6⟩
    rw [hstep, h1]
    rfl

/-- Failing exact-size read: when fewer than `n` bytes remain in total, `read`
fails with `insufficientBytes`; afterwards the stream has ended, every chunk
has been delivered (so everything left sits unread in the buffer), and the
cursor is unchanged. -/
theorem read_err (s : PState) (n : Nat) (hg : GoodState s)
    (hn : (rest s).length < n) :
    ∃ s', read s n = (.err .insufficientBytes, s') ∧ rest s' = rest s ∧
      availList s' = rest s ∧ s'.pending = [] ∧ s'.ended = true ∧
      GoodState s' ∧ s'.cursor = s.cursor ∧ s.buffer <+: s'.buffer := by
  obtain ⟨B, cur, btr, e, ps⟩ := s
  obtain ⟨hc, hp⟩ := hg
  simp only [] at hc hp hn ⊢
  have hdl : (B.drop cur).length = B.length - cur := by simp
  have hfast : ¬ (bytesAvailable ⟨B, cur, btr, e, ps⟩ ≥ n) := by
    have h := avail_le_rest ⟨B, cur, btr, e, ps⟩
    omega
  cases e with
  | true =>
    have hps : ps = [] := hp rfl
    subst hps
    refine ⟨⟨B, cur, btr, true, []⟩, ?_, ?_, ?_, rfl, rfl, ⟨hc, hp⟩, rfl,
      List.prefix_refl B⟩
    · simp only [read]
      rw [if_neg hfast]
      rfl
    · rfl
    · show B.drop cur = rest ⟨B, cur, btr, true, []⟩
      show B.drop cur = B.drop cur ++ List.flatten []
      simp
  | false =>
    have hstep : read ⟨B, cur, btr, false, ps⟩ n
        = pumpAux n ps ⟨B, cur, n, false, ps⟩ := by
      simp only [read]
      rw [if_neg hfast]
      rfl
    have hav : B.length - cur < n := by
      have hb : bytesAvailable ⟨B, cur, btr, false, ps⟩ = B.length - cur := rfl
      omega
    have herr := pumpAux_err n ps B cur hc hav hn
    have hdropc : (B ++ ps.flatten).drop cur = B.drop cur ++ ps.flatten := by
      rw [List.drop_append_eq_append_drop, Nat.sub_eq_zero_of_le hc, List.drop_zero]
    refine ⟨⟨B ++ ps.flatten, cur, n, true, []⟩, by rw [hstep, herr], ?_, ?_,
      rfl, rfl, ⟨by simp; omega, fun _ => rfl⟩, rfl, List.prefix_append B _⟩
    · show (B ++ ps.flatten).drop cur ++ List.flatten [] = _
      rw [hdropc]
      simp [rest, availList]
    · show (B ++ ps.flatten).drop cur = _
      rw [hdropc]
      rfl

/- Little-endian round trips and small helpers. -/

@[simp] theorem enc16_length (n : Nat) : (enc16 n).length = 2 := rfl

@[simp] theorem enc32_length (n : Nat) : (enc32 n).length = 4 := rfl

theorem leVal_enc16 (n : Nat) (h : n < 65536) : leVal (enc16 n) = n := by
  simp [enc16, leVal]
  omega

theorem leVal_enc32 (n : Nat) (h : n < 4294967296) : leVal (enc32 n) = n := by
  simp [enc32, leVal]
  omega

@[simp] theorem rollBuffer_availList (s : PState) :
    availList (rollBuffer s) = availList s := by
  simp [rollBuffer, availList]

@[simp] theorem rollBuffer_rest (s : PState) : rest (rollBuffer s) = rest s := by
  simp [rest, rollBuffer, availList]

theorem rollBuffer_good (s : PState) (hg : GoodState s) :
    GoodState (rollBuffer s) := by
  exact ⟨Nat.zero_le _, hg.2⟩

@[simp] theorem rollBuffer_ended (s : PState) : (rollBuffer s).ended = s.ended := rfl

@[simp] theorem rollBuffer_cursor (s : PState) : (rollBuffer s).cursor = 0 := rfl

/- Behaviour of the priority scan. -/

/-- The scan exits at once when the byte looked at is not a zero byte
(including the out-of-bounds `none` case). -/
theorem scanLoop_exit (fuel : Nat) (pr : Option Nat) (pIdx len : Nat)
    (payload : List Nat) (s : PState) (h : pr ≠ some 0) :
    scanLoop (fuel + 1) pr pIdx payload len s = (.ok (pr, pIdx, payload), s) := by
  cases pr with
  | none => rfl
  | some v =>
    cases v with
    | zero => exact absurd rfl h
    | succ k => rfl

/-- Running the scan across a block of leading zero bytes that ends strictly
before index `len - 1`: no extra bytes are pulled and the state is untouched.
`m` is the index of the first non-zero (or out-of-range) position. -/
theorem scanLoop_zeros (len : Nat) (payload : List Nat) (m : Nat) (s : PState)
    (hm : m + 1 < len) (hz : ∀ j, j < m → payload.get? j = some 0)
    (hnz : payload.get? m ≠ some 0) :
    ∀ fuel i, i ≤ m → m - i < fuel →
    scanLoop fuel (payload.get? i) (i + 1) payload len s
      = (.ok (payload.get? m, m + 1, payload), s) := by
  intro fuel
  induction fuel with
  | zero => intro i _ h; omega
  | succ f ih =>
    intro i hi hf
    by_cases him : i = m
    · subst him
      exact scanLoop_exit f _ _ _ _ _ hnz
    · have hilt : i < m := by omega
      have hz0 : payload.get? i = some 0 := hz i hilt
      rw [hz0]
      show scanLoop (f + 1) (some 0) (i + 1) payload len s = _
      simp only [scanLoop]
      rw [if_neg (by omega : ¬ (i + 1 + 1 ≥ len))]
      exact ih (i + 1) (by omega) (by omega)

/-- Exact read of a known prefix of the remaining stream. -/
theorem read_exact (s : PState) (n : Nat) (d t : List Nat) (hg : GoodState s)
    (hr : rest s = d ++ t) (hd : d.length = n) :
    ∃ s', read s n = (.ok d, s') ∧ rest s' = t ∧ GoodState s' ∧
      s'.ended = s.ended ∧ s.buffer <+: s'.buffer ∧ s.cursor ≤ s'.cursor := by
  subst hd
  have hn : d.length ≤ (rest s).length := by rw [hr]; simp
  obtain ⟨s', h1, h2, h3, h4, h5, h6⟩ := read_ok s d.length hg hn
  rw [hr, List.take_left] at h1
  rw [hr, List.drop_left] at h2
  exact ⟨s', h1, h2, h3, h4, h5, h6⟩

/-- Reading a 16-bit little-endian field that sits at the head of the
remaining stream. -/
theorem readU16_exact (s : PState) (v : Nat) (t : List Nat) (hg : GoodState s)
    (hr : rest s = enc16 v ++ t) (hv : v < 65536) :
    ∃ s', readU16 s = (.ok v, s') ∧ rest s' = t ∧ GoodState s' ∧
      s'.ended = s.ended := by
  obtain ⟨s', h1, h2, h3, h4, _, _⟩ := read_exact s 2 (enc16 v) t hg hr (by simp)
  refine ⟨s', ?_, h2, h3, h4⟩
  simp only [readU16]
  rw [h1]
  simp [mapVal, leVal_enc16 v hv]

/-- Reading a 32-bit little-endian signed field that sits at the head of the
remaining stream. -/
theorem readI32_exact (s : PState) (v : Nat) (t : List Nat) (hg : GoodState s)
    (hr : rest s = enc32 v ++ t) (hv : v < 4294967296) :
    ∃ s', readI32 s = (.ok (toSigned32 v), s') ∧ rest s' = t ∧ GoodState s' ∧
      s'.ended = s.ended := by
  obtain ⟨s', h1, h2, h3, h4, _, _⟩ := read_exact s 4 (enc32 v) t hg hr (by simp)
  refine ⟨s', ?_, h2, h3, h4⟩
  simp only [readI32]
  rw [h1]
  simp [mapVal, leVal_enc32 v hv]

/-- The read phase decodes one well-formed frame exactly: all header fields
are taken from the frame, the payload is consumed as-is, the priority scan
stops at the first payload byte, and the remaining stream is untouched. -/
theorem parseReads_frame (f : Frame) (t : List Nat) (s : PState)
    (hwf : WFFrame f) (hg : GoodState s) (he : s.ended = false)
    (hr : rest s = encTail f ++ t) :
    ∃ s', parseReads f.payload.length s
        = (.ok ⟨f.headerSize, toSigned32 f.pid, toSigned32 f.tid,
            toSigned32 f.sec, toSigned32 f.nsec,
            (if f.headerSize = 24 then some f.id else none),
            f.payload, 1, f.payload.head?⟩, s') ∧
      rest s' = t ∧ GoodState s' ∧ s'.ended = false := by
  obtain ⟨hhs, hlen, hpid, htid, hsec, hnsec, hid, hbytes, c, hhead, hc0, hc7⟩ := hwf
  have hr1 : rest s = enc16 f.headerSize ++ (enc32 f.pid ++ (enc32 f.tid ++
      (enc32 f.sec ++ (enc32 f.nsec ++
      ((if f.headerSize = 24 then enc32 f.id else []) ++ (f.payload ++ t)))))) := by
    rw [hr, encTail]
    simp [List.append_assoc]
  have hhs16 : f.headerSize < 65536 := by rcases hhs with h | h <;> omega
  have hget0 : f.payload.get? 0 = f.payload.head? := by cases f.payload <;> rfl
  have hpr : f.payload.get? 0 ≠ some 0 := by
    rw [hget0, hhead]
    intro hcon
    have : c = 0 := by injection hcon
    omega
  obtain ⟨s1, e1, r1, g1, d1⟩ := readU16_exact s f.headerSize _ hg hr1 hhs16
  obtain ⟨s2, e2, r2, g2, d2⟩ := readI32_exact s1 f.pid _ g1 r1 hpid
  obtain ⟨s3, e3, r3, g3, d3⟩ := readI32_exact s2 f.tid _ g2 r2 htid
  obtain ⟨s4, e4, r4, g4, d4⟩ := readI32_exact s3 f.sec _ g3 r3 hsec
  obtain ⟨s5, e5, r5, g5, d5⟩ := readI32_exact s4 f.nsec _ g4 r4 hnsec
  rcases hhs with h0 | h24
  · have hif : ¬ (f.headerSize ≠ 24 ∧ f.headerSize ≠ 0) := by simp [h0]
    have hio : readIdOpt f.headerSize s5 = (.ok none, s5) := by
      simp [readIdOpt, h0]
    have r5' : rest s5 = f.payload ++ t := by
      rw [r5, h0]
      simp
    obtain ⟨s7, e7, r7, g7, d7, _, _⟩ :=
      read_exact s5 f.payload.length f.payload t g5 r5' rfl
    have hscan : scanLoop (restTotal s7 + f.payload.length + 2)
        (f.payload.get? 0) 1 f.payload f.payload.length s7
        = (.ok (f.payload.get? 0, 1, f.payload), s7) := by
      have hfe : restTotal s7 + f.payload.length + 2
          = (restTotal s7 + f.payload.length + 1) + 1 := rfl
      rw [hfe]
      exact scanLoop_exit _ _ _ _ _ _ hpr
    refine ⟨s7, ?_, r7, g7, by rw [d7, d5, d4, d3, d2, d1, he]⟩
    simp only [parseReads, e1, pstep_ok, if_neg hif, e2, e3, e4, e5, hio, e7,
      hscan]
    rw [if_neg (by omega : ¬ (1 > 1))]
    simp [hget0, h0]
    cases f.payload <;> simp
  · have hif : ¬ (f.headerSize ≠ 24 ∧ f.headerSize ≠ 0) := by simp [h24]
    have r5' : rest s5 = enc32 f.id ++ (f.payload ++ t) := by
      rw [r5, h24]
      simp
    obtain ⟨s6, e6, r6, g6, d6, _, _⟩ :=
      read_exact s5 4 (enc32 f.id) (f.payload ++ t) g5 r5' (by simp)
    have hio : readIdOpt f.headerSize s5 = (.ok (some f.id), s6) := by
      unfold readIdOpt
      rw [if_pos h24, e6]
      simp [mapVal, leVal_enc32 f.id hid]
    obtain ⟨s7, e7, r7, g7, d7, _, _⟩ :=
      read_exact s6 f.payload.length f.payload t g6 r6 rfl
    have hscan : scanLoop (restTotal s7 + f.payload.length + 2)
        (f.payload.get? 0) 1 f.payload f.payload.length s7
        = (.ok (f.payload.get? 0, 1, f.payload), s7) := by
      have hfe : restTotal s7 + f.payload.length + 2
          = (restTotal s7 + f.payload.length + 1) + 1 := rfl
      rw [hfe]
      exact scanLoop_exit _ _ _ _ _ _ hpr
    refine ⟨s7, ?_, r7, g7, by rw [d7, d6, d5, d4, d3, d2, d1, he]⟩
    simp only [parseReads, e1, pstep_ok, if_neg hif, e2, e3, e4, e5, hio, e7,
      hscan]
    rw [if_neg (by omega : ¬ (1 > 1))]
    simp [hget0, h24]
    cases f.payload <;> simp

/-- One full decode iteration (after the length field) on a well-formed frame
produces exactly the frame's record and rolls the buffer at the frame
boundary. -/
theorem parseRest_frame (f : Frame) (t : List Nat) (s : PState)
    (hwf : WFFrame f) (hg : GoodState s) (he : s.ended = false)
    (hr : rest s = encTail f ++ t) :
    ∃ s', parseRest f.payload.length s = (.ok (recordOf f), s') ∧
      rest s' = t ∧ GoodState s' ∧ s'.ended = false ∧ s'.cursor = 0 := by
  obtain ⟨s', e, r, g, d⟩ := parseReads_frame f t s hwf hg he hr
  refine ⟨rollBuffer s', ?_, by simp [r], rollBuffer_good s' g, by simp [d], rfl⟩
  simp only [parseRest, e, pstep_ok]
  have : mkEntry ⟨f.headerSize, toSigned32 f.pid, toSigned32 f.tid,
      toSigned32 f.sec, toSigned32 f.nsec,
      (if f.headerSize = 24 then some f.id else none),
      f.payload, 1, f.payload.head?⟩ = recordOf f := by
    by_cases h24 : f.headerSize = 24 <;> simp [mkEntry, recordOf, h24]
  rw [this]

@[simp] theorem encodeFrames_nil : encodeFrames [] = [] := rfl

theorem encodeFrames_cons (f : Frame) (fs : List Frame) :
    encodeFrames (f :: fs) = encodeFrame f ++ encodeFrames fs := by
  simp [encodeFrames]

theorem encodeFrames_length_ge (fs : List Frame) :
    fs.length ≤ (encodeFrames fs).length := by
  induction fs with
  | nil => simp
  | cons f fs ih =>
    rw [encodeFrames_cons, List.length_append]
    have h2 : 2 ≤ (encodeFrame f).length := by
      show 2 ≤ (enc16 f.payload.length ++ encTail f).length
      rw [List.length_append]
      simp
    have hc : (f :: fs).length = fs.length + 1 := rfl
    omega

theorem sumLens_eq_flatten_length (cs : List (List Nat)) :
    sumLens cs = cs.flatten.length := by
  simp [sumLens, List.length_flatten]

/-- The decode loop on a stream of well-formed frames yields exactly their
records and terminates cleanly. -/
theorem go_frames (nE tR : Bool) :
    ∀ (fs : List Frame) (fuel : Nat) (s : PState),
    (∀ f ∈ fs, WFFrame f) → GoodState s → s.ended = false →
    rest s = encodeFrames fs → fs.length < fuel →
    (go nE tR fuel s).1 = fs.map recordOf ∧
    (go nE tR fuel s).2.1 = .clean := by
  intro fs
  induction fs with
  | nil =>
    intro fuel s _ hg he hr hf
    cases fuel with
    | zero => exact (Nat.not_lt_zero _ hf).elim
    | succ F =>
      have hn : (rest s).length < 2 := by rw [hr]; simp
      obtain ⟨s', e', hrst, hav, hpend, hend, hg', hcur, hpre⟩ :=
        read_err s 2 hg hn
      have hu : readU16 s = (.err .insufficientBytes, s') := by
        simp only [readU16]
        rw [e']
        rfl
      have hbav : bytesAvailable s' = 0 := by
        have := availList_length s'
        rw [hav, hr] at this
        simp at this
        omega
      simp only [go]
      rw [if_pos (Or.inl he), hu]
      simp only [hbav, if_pos rfl]
      exact ⟨rfl, rfl⟩
  | cons f fs ih =>
    intro fuel s hwf hg he hr hf
    cases fuel with
    | zero => exact (Nat.not_lt_zero _ hf).elim
    | succ F =>
      have hwff : WFFrame f := hwf f (by simp)
      have hr' : rest s = enc16 f.payload.length ++ (encTail f ++ encodeFrames fs) := by
        rw [hr, encodeFrames_cons, encodeFrame, List.append_assoc]
      obtain ⟨s1, e1, r1, g1, d1⟩ :=
        readU16_exact s f.payload.length _ hg hr' hwff.2.1
      obtain ⟨s2, e2, r2, g2, d2, _⟩ :=
        parseRest_frame f (encodeFrames fs) s1 hwff g1 (d1.trans he) r1
      have hflen : fs.length < F := by
        have : (f :: fs).length = fs.length + 1 := rfl
        omega
      have hrec := ih F s2 (fun g hgmem => hwf g (by simp [hgmem])) g2 d2 r2 hflen
      simp only [go]
      rw [if_pos (Or.inl he), e1]
      simp only []
      rw [e2]
      simp only []
      refine ⟨?_, ?_⟩
      · show recordOf f :: (go nE tR F s2).1 = _
        rw [hrec.1]
        rfl
      · show (go nE tR F s2).2.1 = _
        exact hrec.2

/-- Reading a 16-bit field whose two raw bytes head the remaining stream. -/
theorem readU16_pair (s : PState) (a b : Nat) (t : List Nat) (hg : GoodState s)
    (hr : rest s = a :: b :: t) :
    ∃ s', readU16 s = (.ok (a + 256 * b), s') ∧ rest s' = t ∧ GoodState s' ∧
      s'.ended = s.ended := by
  obtain ⟨s', h1, h2, h3, h4, _, _⟩ :=
    read_exact s 2 [a, b] t hg (by rw [hr]; rfl) rfl
  refine ⟨s', ?_, h2, h3, h4⟩
  simp only [readU16]
  rw [h1]
  simp [mapVal, leVal]

/-- A frame used by concrete witnesses: the example of the specification
(priority 4, tag "test", empty message). -/
def sampleFrame : Frame := ⟨0, 0, 0, 0, 0, 0, [4, 116, 101, 115, 116, 0]⟩

/-- C1: for every byte stream encoding a list of well-formed frames and every
way of splitting it into delivered chunks, the decode loop yields exactly the
frames' records — the same list as single-chunk delivery — and terminates
cleanly. -/
theorem c1_chunking_invariance (fs : List Frame) (cs : List (List Nat))
    (hwf : ∀ f ∈ fs, WFFrame f) (hcs : cs.flatten = encodeFrames fs) :
    (runParser cs false false).1 = fs.map recordOf ∧
    (runParser cs false false).2.1 = .clean ∧
    (runParser [encodeFrames fs] false false).1 = fs.map recordOf ∧
    (runParser [encodeFrames fs] false false).2.1 = .clean ∧
    (runParser cs false false).1.length = fs.length := by
  have hinit : ∀ ds : List (List Nat), ds.flatten = encodeFrames fs →
      (runParser ds false false).1 = fs.map recordOf ∧
      (runParser ds false false).2.1 = .clean := by
    intro ds hds
    have hrest : rest (initState ds) = encodeFrames fs := by
      simp [rest, initState, availList, hds]
    have hfuel : fs.length < sumLens ds + 1 := by
      have h1 := encodeFrames_length_ge fs
      have h2 : sumLens ds = ds.flatten.length := sumLens_eq_flatten_length ds
      rw [hds] at h2
      omega
    exact go_frames false false fs (sumLens ds + 1) (initState ds) hwf
      ⟨Nat.le_refl 0, by intro h; exact absurd h (by simp [initState])⟩
      rfl hrest hfuel
  obtain ⟨a1, a2⟩ := hinit cs hcs
  obtain ⟨b1, b2⟩ := hinit [encodeFrames fs] (by simp)
  exact ⟨a1, a2, b1, b2, by rw [a1]; simp⟩

/-- Witness for C1 at a concrete frame split into three chunks, one of which
cuts the 16-bit length field in half. -/
theorem c1_chunking_invariance_witness :
    (∀ f ∈ [sampleFrame], WFFrame f) ∧
    ([[6], [0, 0], (encodeFrame sampleFrame).drop 3].flatten
      = encodeFrames [sampleFrame]) ∧
    (runParser [[6], [0, 0], (encodeFrame sampleFrame).drop 3] false false).1
      = [sampleFrame].map recordOf := by
  refine ⟨by decide, by decide, ?_⟩
  exact (c1_chunking_invariance [sampleFrame] [[6], [0, 0],
    (encodeFrame sampleFrame).drop 3] (by decide) (by decide)).1

/-- C5: a frame whose header-size field is neither 0 nor 24 makes the decode
loop fail with the invalid-header-size error when recovery is disabled; with
recovery enabled it discards all buffered bytes and ends the sequence cleanly
with no further records. -/
theorem c5_invalid_header_size (s : PState) (l0 l1 b0 b1 : Nat) (t : List Nat)
    (fuel : Nat) (nE : Bool) (hg : GoodState s) (he : s.ended = false)
    (hr : rest s = l0 :: l1 :: b0 :: b1 :: t)
    (h24 : b0 + 256 * b1 ≠ 24) (hz : b0 + 256 * b1 ≠ 0) :
    (∃ s', go nE true (fuel + 1) s = ([], .clean, s') ∧
      s'.buffer = [] ∧ s'.cursor = 0 ∧ s'.bytesToRead = 0) ∧
    (∃ s', go false false (fuel + 1) s
        = ([], .raised (.invalidHeaderSize (b0 + 256 * b1)), s')) := by
  obtain ⟨s1, e1, r1, g1, d1⟩ := readU16_pair s l0 l1 _ hg hr
  obtain ⟨s2, e2, r2, g2, d2⟩ := readU16_pair s1 b0 b1 t g1 r1
  have hpr : parseRest (l0 + 256 * l1) s1
      = (.err (.invalidHeaderSize (b0 + 256 * b1)), s2) := by
    simp only [parseRest, parseReads, e2, pstep_ok]
    rw [if_pos ⟨h24, hz⟩]
    rfl
  constructor
  · refine ⟨clearBuffer (clearBuffer s2), ?_, rfl, rfl, rfl⟩
    simp only [go]
    rw [if_pos (Or.inl he), e1]
    simp only []
    rw [hpr]
    simp
  · refine ⟨s2, ?_⟩
    simp only [go]
    rw [if_pos (Or.inl he), e1]
    simp only []
    rw [hpr]
    simp [finishErr]

/-- Witness for C5 at the concrete four-byte stream `[5, 0, 5, 0]`
(header size 5). -/
theorem c5_invalid_header_size_witness :
    ∃ s', go false false 1 ⟨[5, 0, 5, 0], 0, 0, false, []⟩
      = ([], .raised (.invalidHeaderSize (5 + 256 * 0)), s') :=
  (c5_invalid_header_size ⟨[5, 0, 5, 0], 0, 0, false, []⟩ 5 0 5 0 [] 0 false
    (by decide) rfl (by decide) (by decide) (by decide)).2

/-- C6: the exact-size-read contract.  With `n` bytes buffered the read
returns them at once, advancing only the cursor (no chunk is pulled, no
suspension).  Short of bytes on an ended stream it fails at once.  Otherwise
it records `n` as the pending-read-size and suspends (the delivery loop
`pump`); it is then woken with exactly the next `n` stream bytes once enough
data has arrived, or fails with `insufficientBytes` when the stream ends
first. -/
theorem c6_read_contract (s : PState) (n : Nat) (hg : GoodState s) :
    (bytesAvailable s ≥ n →
      read s n = (.ok ((availList s).take n), { s with cursor := s.cursor + n })) ∧
    (bytesAvailable s < n → s.ended = true →
      read s n = (.err .insufficientBytes, s)) ∧
    (bytesAvailable s < n → s.ended = false →
      read s n = pump { s with bytesToRead := n } n ∧
      (n ≤ (rest s).length → ∃ s', read s n = (.ok ((rest s).take n), s') ∧
        rest s' = (rest s).drop n ∧ s'.bytesToRead = 0 ∧ s'.ended = false) ∧
      ((rest s).length < n → ∃ s', read s n = (.err .insufficientBytes, s') ∧
        s'.ended = true ∧ s'.bytesToRead = n ∧ availList s' = rest s)) := by
  refine ⟨?_, ?_, ?_⟩
  · intro hfast
    simp only [read]
    rw [if_pos hfast]
    rfl
  · intro hslow hend
    simp only [read]
    rw [if_neg (by omega), hend]
    rfl
  · intro hslow hend
    refine ⟨?_, ?_, ?_⟩
    · simp only [read]
      rw [if_neg (by omega), hend]
      rfl
    · intro hn
      obtain ⟨B, cur, btr, e, ps⟩ := s
      simp only [] at hend
      subst hend
      have hav : B.length - cur < n := by
        have hs2 : bytesAvailable ⟨B, cur, btr, false, ps⟩ < n := hslow
        have hb : bytesAvailable ⟨B, cur, btr, false, ps⟩ = B.length - cur := rfl
        omega
      obtain ⟨s', h1, h2, h3, h4, h5, h6, h7⟩ :=
        pumpAux_ok n ps B cur hg.1 hav hn
      refine ⟨s', ?_, h2, h7, h3⟩
      show read ⟨B, cur, btr, false, ps⟩ n = _
      simp only [read]
      rw [if_neg (by omega)]
      show pumpAux n ps ⟨B, cur, n, false, ps⟩ = _
      rw [h1]
      rfl
    · intro hn
      obtain ⟨B, cur, btr, e, ps⟩ := s
      simp only [] at hend
      subst hend
      have hav : B.length - cur < n := by
        have hs2 : bytesAvailable ⟨B, cur, btr, false, ps⟩ < n := hslow
        have hb : bytesAvailable ⟨B, cur, btr, false, ps⟩ = B.length - cur := rfl
        omega
      have herr := pumpAux_err n ps B cur hg.1 hav hn
      refine ⟨⟨B ++ ps.flatten, cur, n, true, []⟩, ?_, rfl, rfl, ?_⟩
      · show read ⟨B, cur, btr, false, ps⟩ n = _
        simp only [read]
        rw [if_neg (by omega)]
        show pumpAux n ps ⟨B, cur, n, false, ps⟩ = _
        rw [herr]
      · show (B ++ ps.flatten).drop cur = _
        rw [List.drop_append_eq_append_drop, Nat.sub_eq_zero_of_le hg.1,
          List.drop_zero]
        rfl

/-- Witness for C6 at a concrete state: one byte buffered, read of three bytes
with one pending two-byte chunk, satisfied after delivery. -/
theorem c6_read_contract_witness :
    bytesAvailable ⟨[9], 0, 0, false, [[7, 8]]⟩ < 3 ∧
    (⟨[9], 0, 0, false, [[7, 8]]⟩ : PState).ended = false ∧
    read ⟨[9], 0, 0, false, [[7, 8]]⟩ 3
      = pump { (⟨[9], 0, 0, false, [[7, 8]]⟩ : PState) with bytesToRead := 3 } 3 := by
  refine ⟨by decide, rfl, ?_⟩
  exact ((c6_read_contract ⟨[9], 0, 0, false, [[7, 8]]⟩ 3 (by decide)).2.2
    (by decide) rfl).1

/-- C2 (amended): a well-formed frame consumes the 4-byte id field exactly
when its header size is 24 (the field sits right after the nanoseconds field
in `encTail`, and the remaining stream afterwards is exactly `t`), and the
yielded record carries the id only when its value is non-zero — the code
attaches `id` only when truthy.  A frame with header size 0 never yields an
id. -/
theorem c2_header_variant_id (f : Frame) (t : List Nat) (s : PState)
    (hwf : WFFrame f) (hg : GoodState s) (he : s.ended = false)
    (hr : rest s = encTail f ++ t) :
    ∃ s', parseRest f.payload.length s = (.ok (recordOf f), s') ∧ rest s' = t ∧
      (recordOf f).id? = (if f.headerSize = 24 then
        (if f.id = 0 then none else some f.id) else none) := by
  obtain ⟨s', h1, h2, _, _, _⟩ := parseRest_frame f t s hwf hg he hr
  exact ⟨s', h1, h2, by simp [recordOf]⟩

/-- Witness for C2 at a concrete header-size-24 frame with a non-zero id. -/
theorem c2_header_variant_id_witness :
    ∃ s', parseRest (⟨24, 1, 2, 3, 4, 11, [4, 65]⟩ : Frame).payload.length
        ⟨encTail ⟨24, 1, 2, 3, 4, 11, [4, 65]⟩, 0, 0, false, []⟩
      = (.ok (recordOf ⟨24, 1, 2, 3, 4, 11, [4, 65]⟩), s') ∧ rest s' = [] ∧
      (recordOf ⟨24, 1, 2, 3, 4, 11, [4, 65]⟩).id?
        = (if (⟨24, 1, 2, 3, 4, 11, [4, 65]⟩ : Frame).headerSize = 24 then
            (if (⟨24, 1, 2, 3, 4, 11, [4, 65]⟩ : Frame).id = 0 then none
             else some (⟨24, 1, 2, 3, 4, 11, [4, 65]⟩ : Frame).id) else none) :=
  c2_header_variant_id ⟨24, 1, 2, 3, 4, 11, [4, 65]⟩ []
    ⟨encTail ⟨24, 1, 2, 3, 4, 11, [4, 65]⟩, 0, 0, false, []⟩
    (by decide) (by decide) rfl (by simp [rest, availList, initState])

/-- Counterexample to C2 as stated: a header-size-24 frame whose id field
decodes to 0 yields a record with no id at all (`if (id)` drops a zero id). -/
theorem c2_counterexample :
    ((runParser [encodeFrame ⟨24, 1, 2, 3, 4, 0, [4, 65]⟩] false false).1.map
      LogEntry.id?) = [none] ∧
    (⟨24, 1, 2, 3, 4, 0, [4, 65]⟩ : Frame).headerSize = 24 ∧
    (runParser [encodeFrame ⟨24, 1, 2, 3, 4, 0, [4, 65]⟩] false false).2.1
      = .clean := by
  refine ⟨by decide, rfl, by decide⟩

/-- Reading a 32-bit field from four raw bytes heading the remaining
stream. -/
theorem readI32_raw (s : PState) (d t : List Nat) (hg : GoodState s)
    (hr : rest s = d ++ t) (hd : d.length = 4) :
    ∃ s', readI32 s = (.ok (toSigned32 (leVal d)), s') ∧ rest s' = t ∧
      GoodState s' ∧ s'.ended = s.ended := by
  obtain ⟨s', h1, h2, h3, h4, _, _⟩ := read_exact s 4 d t hg hr hd
  refine ⟨s', ?_, h2, h3, h4⟩
  simp only [readI32]
  rw [h1]
  rfl

/-- C10: a frame whose payload-length field is 0 still yields a record: the
priority scan indexes the empty payload out of bounds (`none`), no extra bytes
are pulled (the remaining stream is exactly `t`), and the record has an absent
priority, an empty tag and an empty message. -/
theorem c10_zero_length_payload (s : PState) (hsv : Nat)
    (w x y z idb t : List Nat)
    (hg : GoodState s) (he : s.ended = false)
    (hhs : hsv = 0 ∨ hsv = 24)
    (hw : w.length = 4) (hx : x.length = 4) (hy : y.length = 4)
    (hz4 : z.length = 4) (hib : idb.length = (if hsv = 24 then 4 else 0))
    (hr : rest s = enc16 hsv ++ (w ++ (x ++ (y ++ (z ++ (idb ++ t)))))) :
    ∃ s' e, parseRest 0 s = (.ok e, s') ∧ rest s' = t ∧
      e.priority = none ∧ e.tag = [] ∧ e.msg = [] := by
  have hhs16 : hsv < 65536 := by rcases hhs with h | h <;> omega
  obtain ⟨s1, e1, r1, g1, d1⟩ := readU16_exact s hsv _ hg hr hhs16
  obtain ⟨s2, e2, r2, g2, d2⟩ := readI32_raw s1 w _ g1 r1 hw
  obtain ⟨s3, e3, r3, g3, d3⟩ := readI32_raw s2 x _ g2 r2 hx
  obtain ⟨s4, e4, r4, g4, d4⟩ := readI32_raw s3 y _ g3 r3 hy
  obtain ⟨s5, e5, r5, g5, d5⟩ := readI32_raw s4 z _ g4 r4 hz4
  have hif : ¬ (hsv ≠ 24 ∧ hsv ≠ 0) := by rcases hhs with h | h <;> simp [h]
  -- the id field, then the zero-length payload read and the scan
  have hnext : ∃ s6 idv, readIdOpt hsv s5 = (.ok idv, s6) ∧ rest s6 = t ∧
      GoodState s6 ∧ s6.ended = false := by
    rcases hhs with h0 | h24
    · have hidb : idb = [] := by
        rw [h0] at hib
        simpa using hib
      refine ⟨s5, none, ?_, ?_, g5, by rw [d5, d4, d3, d2, d1, he]⟩
      · unfold readIdOpt
        rw [if_neg (by omega)]
      · rw [r5, hidb]
        rfl
    · have hidb : idb.length = 4 := by rw [h24] at hib; simpa using hib
      obtain ⟨s6, e6, r6, g6, d6, _, _⟩ := read_exact s5 4 idb t g5 r5 hidb
      refine ⟨s6, some (leVal idb), ?_, r6, g6,
        by rw [d6, d5, d4, d3, d2, d1, he]⟩
      unfold readIdOpt
      rw [if_pos h24, e6]
      rfl
  obtain ⟨s6, idv, e6, r6, g6, d6⟩ := hnext
  obtain ⟨s7, e7, r7, g7, d7, _, _⟩ :=
    read_exact s6 0 [] t g6 (by rw [r6]; rfl) rfl
  have hscan : scanLoop (restTotal s7 + 0 + 2) (([] : List Nat).get? 0) 1 [] 0 s7
      = (.ok (none, 1, ([] : List Nat)), s7) := by
    have hfe : restTotal s7 + 0 + 2 = (restTotal s7 + 0 + 1) + 1 := rfl
    rw [hfe]
    exact scanLoop_exit _ _ _ _ _ _ (by simp)
  have hreads : parseReads 0 s = (.ok ⟨hsv, toSigned32 (leVal w),
      toSigned32 (leVal x), toSigned32 (leVal y), toSigned32 (leVal z),
      idv, [], 1, none⟩, s7) := by
    simp only [parseReads, e1, pstep_ok, if_neg hif, e2, e3, e4, e5, e6, e7,
      hscan]
    rw [if_neg (by omega : ¬ (1 > 1))]
    simp
  refine ⟨rollBuffer s7, mkEntry ⟨hsv, toSigned32 (leVal w),
    toSigned32 (leVal x), toSigned32 (leVal y), toSigned32 (leVal z),
    idv, [], 1, none⟩, ?_, by simp [r7], by rfl, by simp [mkEntry, slice],
    by simp [mkEntry, slice]⟩
  simp only [parseRest, hreads, pstep_ok]

/-- Witness for C10 at a concrete header-size-24 zero-length frame followed by
one stray byte. -/
theorem c10_zero_length_payload_witness :
    ∃ s' e, parseRest 0 ⟨enc16 24 ++ ([0,0,0,0] ++ ([0,0,0,0] ++ ([0,0,0,0] ++
        ([0,0,0,0] ++ ([11,0,0,0] ++ [9]))))), 0, 0, false, []⟩ = (.ok e, s') ∧
      rest s' = [9] ∧ e.priority = none ∧ e.tag = [] ∧ e.msg = [] :=
  c10_zero_length_payload _ 24 [0,0,0,0] [0,0,0,0] [0,0,0,0] [0,0,0,0]
    [11,0,0,0] [9] (by decide) rfl (Or.inr rfl) rfl rfl rfl rfl (by decide)
    (by simp [rest, availList])

/-- C4 (amended): whenever the decode loop terminates cleanly, by recovery, or
by a swallowed error, the final state has an empty buffer and a zero cursor
and pending-read-size.  (A propagated error skips this reset: the rethrow
happens before the clear, see the counterexample.) -/
theorem c4_clear_on_benign_termination (nE tR : Bool) :
    ∀ (fuel : Nat) (s : PState),
    ((go nE tR fuel s).2.1 = .clean ∨
      (∃ e, (go nE tR fuel s).2.1 = .swallowed e)) →
    (go nE tR fuel s).2.2.buffer = [] ∧ (go nE tR fuel s).2.2.cursor = 0 ∧
    (go nE tR fuel s).2.2.bytesToRead = 0 := by
  intro fuel
  induction fuel with
  | zero =>
    intro s h
    rcases h with h | ⟨e, h⟩ <;> exact absurd h (by simp [go])
  | succ F ih =>
    intro s h
    by_cases hcond : s.ended = false ∨ bytesAvailable s ≠ 0
    · rcases hu : readU16 s with ⟨r1, s1⟩
      cases r1 with
      | err e1 =>
        cases e1 with
        | insufficientBytes =>
          by_cases hav : bytesAvailable s1 = 0
          · simp [go, hcond, hu, hav, clearBuffer]
          · simp only [go, hu] at h ⊢
            rw [if_pos hcond] at h ⊢
            simp only [if_neg hav] at h ⊢
            cases nE with
            | true => simp [finishErr, clearBuffer]
            | false =>
              exfalso
              rcases h with h | ⟨e, h⟩ <;> simp [finishErr] at h
        | invalidHeaderSize k =>
          simp only [go, hu] at h ⊢
          rw [if_pos hcond] at h ⊢
          cases nE with
          | true => simp [finishErr, clearBuffer]
          | false =>
            exfalso
            rcases h with h | ⟨e, h⟩ <;> simp [finishErr] at h
      | fuelOut =>
        exfalso
        simp only [go, hu] at h
        rw [if_pos hcond] at h
        rcases h with h | ⟨e, h⟩ <;> simp at h
      | ok len =>
        rcases hp : parseRest len s1 with ⟨r2, s2⟩
        cases r2 with
        | ok e2 =>
          have hgo : go nE tR (F + 1) s
              = ((e2 :: (go nE tR F s2).1, (go nE tR F s2).2.1,
                  (go nE tR F s2).2.2)) := by
            simp only [go, hu, hp]
            rw [if_pos hcond]
          rw [hgo] at h ⊢
          exact ih s2 h
        | err e2 =>
          cases e2 with
          | invalidHeaderSize k =>
            simp only [go, hu, hp] at h ⊢
            rw [if_pos hcond] at h ⊢
            cases tR with
            | true => simp [clearBuffer]
            | false =>
              cases nE with
              | true => simp [finishErr, clearBuffer]
              | false =>
                exfalso
                rcases h with h | ⟨e, h⟩ <;> simp [finishErr] at h
          | insufficientBytes =>
            simp only [go, hu, hp] at h ⊢
            rw [if_pos hcond] at h ⊢
            cases nE with
            | true => simp [finishErr, clearBuffer]
            | false =>
              exfalso
              rcases h with h | ⟨e, h⟩ <;> simp [finishErr] at h
        | fuelOut =>
          exfalso
          simp only [go, hu, hp] at h
          rw [if_pos hcond] at h
          rcases h with h | ⟨e, h⟩ <;> simp at h
    · simp [go, hcond, clearBuffer]

/-- Witness for C4 at a concrete clean run (empty input). -/
theorem c4_clear_on_benign_termination_witness :
    (go false false 1 (initState [])).2.2.buffer = [] ∧
    (go false false 1 (initState [])).2.2.cursor = 0 ∧
    (go false false 1 (initState [])).2.2.bytesToRead = 0 :=
  c4_clear_on_benign_termination false false 1 (initState [])
    (Or.inl (by decide))

/-- Counterexample to C4 as stated: a propagated invalid-header-size error
terminates the sequence with the internal buffer NOT reset — the four consumed
bytes are still buffered and the cursor still points past them. -/
theorem c4_counterexample :
    (runParser [[5, 0, 5, 0]] false false).2.1
      = .raised (.invalidHeaderSize 5) ∧
    (runParser [[5, 0, 5, 0]] false false).2.2.buffer = [5, 0, 5, 0] ∧
    (runParser [[5, 0, 5, 0]] false false).2.2.cursor = 4 := by
  refine ⟨by decide, by decide, by decide⟩

/- Shift lemmas: how the separator search, the message-end computation and
the slices behave when the payload carries `p` extra leading bytes. -/

theorem firstZero?_shift (pre l : List Nat) :
    ∀ i, firstZero? (pre ++ l) (pre.length + i)
      = (firstZero? l i).map (fun j => pre.length + j) := by
  suffices h : ∀ fuel i, l.length - i < fuel →
      firstZero? (pre ++ l) (pre.length + i)
        = (firstZero? l i).map (fun j => pre.length + j) by
    intro i
    exact h (l.length - i + 1) i (by omega)
  intro fuel
  induction fuel with
  | zero => intro i h; omega
  | succ F ih =>
    intro i hi
    have hlen : (pre ++ l).length = pre.length + l.length := by simp
    by_cases hlt : i < l.length
    · have hlt' : pre.length + i < (pre ++ l).length := by omega
      have hget : (pre ++ l).get? (pre.length + i) = l.get? i := by
        rw [List.get?_append_right (by omega)]
        congr 1
        omega
      unfold firstZero?
      rw [dif_pos hlt', dif_pos hlt, hget]
      by_cases hz : l.get? i = some 0
      · rw [if_pos hz, if_pos hz]
        rfl
      · rw [if_neg hz, if_neg hz]
        have hrec := ih (i + 1) (by omega)
        rw [show pre.length + i + 1 = pre.length + (i + 1) from by omega]
        exact hrec
    · have hge' : ¬ (pre.length + i < (pre ++ l).length) := by omega
      unfold firstZero?
      rw [dif_neg hge', dif_neg hlt]
      rfl

theorem sepIndex_shift (pre l : List Nat) (i : Nat) :
    sepIndex (pre ++ l) (pre.length + i) = pre.length + sepIndex l i := by
  unfold sepIndex
  rw [firstZero?_shift pre l i]
  cases firstZero? l i with
  | none => simp
  | some k => rfl

theorem msgEnd_shift (pre l : List Nat) (hne : l ≠ []) :
    msgEnd (pre ++ l) = pre.length + msgEnd l := by
  unfold msgEnd
  rw [List.getLast?_append_of_ne_nil pre hne]
  have hlen : (pre ++ l).length = pre.length + l.length := by simp
  have hl1 : 1 ≤ l.length := List.length_pos.mpr hne
  by_cases h : l.getLast? = some 0
  · rw [if_pos h, if_pos h]
    omega
  · rw [if_neg h, if_neg h]
    omega

theorem slice_shift (pre l : List Nat) (a b : Nat) :
    slice (pre ++ l) (pre.length + a) (pre.length + b) = slice l a b := by
  unfold slice
  have hdrop : (pre ++ l).drop (pre.length + a) = l.drop a := by
    rw [List.drop_append_eq_append_drop]
    have h1 : pre.drop (pre.length + a) = [] :=
      List.drop_eq_nil_of_le (by omega)
    rw [h1, List.nil_append]
    congr 1
    omega
  rw [hdrop]
  congr 1
  omega

/-- Record assembly is invariant under stripping the leading padding zeros
together with the matching shift of the priority index. -/
theorem mkEntry_shift (hs : Nat) (pid tid sec nsec : Int) (idv : Option Nat)
    (core : List Nat) (p : Nat) (pr : Option Nat) (hne : core ≠ []) :
    mkEntry ⟨hs, pid, tid, sec, nsec, idv, List.replicate p 0 ++ core, p + 1, pr⟩
      = mkEntry ⟨hs, pid, tid, sec, nsec, idv, core, 1, pr⟩ := by
  have hlen : (List.replicate p (0 : Nat)).length = p := by simp
  have hsep := sepIndex_shift (List.replicate p 0) core 1
  rw [hlen] at hsep
  have hmsg := msgEnd_shift (List.replicate p 0) core hne
  rw [hlen] at hmsg
  have htag := slice_shift (List.replicate p 0) core 1 (sepIndex core 1)
  rw [hlen] at htag
  have hmsl := slice_shift (List.replicate p 0) core (sepIndex core 1 + 1)
    (msgEnd core)
  rw [hlen] at hmsl
  unfold mkEntry
  simp only [hsep, hmsg]
  rw [show p + sepIndex core 1 + 1 = p + (sepIndex core 1 + 1) from by omega]
  rw [htag, hmsl]

/-- One decode iteration on a frame whose payload starts with `p ≤ len - 2`
alignment zeros before the real `len`-byte payload `core`: the `len`-byte read
picks up the zeros plus the first `len - p` core bytes; the scan skips the
zeros; the compensation pull takes the remaining `p` core bytes, so exactly
`len + p` payload bytes are consumed in total and the following bytes `t` are
untouched. -/
theorem parseRest_padded (s : PState) (len p hsv : Nat)
    (w x y z idb core t : List Nat) (c : Nat)
    (hg : GoodState s) (he : s.ended = false)
    (hhs : hsv = 0 ∨ hsv = 24)
    (hw : w.length = 4) (hx : x.length = 4) (hy : y.length = 4)
    (hz4 : z.length = 4) (hib : idb.length = (if hsv = 24 then 4 else 0))
    (hcore : core.length = len) (hple : p + 2 ≤ len)
    (hc : core.get? 0 = some c) (hc0 : c ≠ 0)
    (hr : rest s = enc16 hsv ++ (w ++ (x ++ (y ++ (z ++ (idb ++
      (List.replicate p 0 ++ (core ++ t)))))))) :
    ∃ s', parseRest len s = (.ok (mkEntry ⟨hsv, toSigned32 (leVal w),
        toSigned32 (leVal x), toSigned32 (leVal y), toSigned32 (leVal z),
        (if hsv = 24 then some (leVal idb) else none),
        List.replicate p 0 ++ core, p + 1, some c⟩), s') ∧
      rest s' = t := by
  have hhs16 : hsv < 65536 := by rcases hhs with h | h <;> omega
  obtain ⟨s1, e1, r1, g1, d1⟩ := readU16_exact s hsv _ hg hr hhs16
  obtain ⟨s2, e2, r2, g2, d2⟩ := readI32_raw s1 w _ g1 r1 hw
  obtain ⟨s3, e3, r3, g3, d3⟩ := readI32_raw s2 x _ g2 r2 hx
  obtain ⟨s4, e4, r4, g4, d4⟩ := readI32_raw s3 y _ g3 r3 hy
  obtain ⟨s5, e5, r5, g5, d5⟩ := readI32_raw s4 z _ g4 r4 hz4
  have hif : ¬ (hsv ≠ 24 ∧ hsv ≠ 0) := by rcases hhs with h | h <;> simp [h]
  have hnext : ∃ s6, readIdOpt hsv s5
      = (.ok (if hsv = 24 then some (leVal idb) else none), s6) ∧
      rest s6 = List.replicate p 0 ++ (core ++ t) ∧
      GoodState s6 ∧ s6.ended = false := by
    rcases hhs with h0 | h24
    · have hidb : idb = [] := by
        rw [h0] at hib
        simpa using hib
      have r5' : rest s5 = List.replicate p 0 ++ (core ++ t) := by
        rw [r5, hidb]
        rfl
      refine ⟨s5, ?_, r5', g5, by rw [d5, d4, d3, d2, d1, he]⟩
      unfold readIdOpt
      rw [if_neg (by omega), if_neg (by omega)]
    · have hidb : idb.length = 4 := by rw [h24] at hib; simpa using hib
      obtain ⟨s6, e6, r6, g6, d6, _, _⟩ := read_exact s5 4 idb _ g5 r5 hidb
      refine ⟨s6, ?_, r6, g6, by rw [d6, d5, d4, d3, d2, d1, he]⟩
      unfold readIdOpt
      rw [if_pos h24, if_pos h24, e6]
      rfl
  obtain ⟨s6, e6, r6, g6, d6⟩ := hnext
  -- the len-byte payload read takes the zeros plus the first core bytes
  have htlen : (core.take (len - p)).length = len - p := by
    rw [List.length_take]
    omega
  have hDlen : (List.replicate p 0 ++ core.take (len - p)).length = len := by
    rw [List.length_append, List.length_replicate, htlen]
    omega
  have hsplit : rest s6 = (List.replicate p 0 ++ core.take (len - p)) ++
      (core.drop (len - p) ++ t) := by
    rw [r6, List.append_assoc]
    congr 1
    rw [← List.append_assoc, List.take_append_drop]
  obtain ⟨s7, e7, r7, g7, d7, _, _⟩ :=
    read_exact s6 len (List.replicate p 0 ++ core.take (len - p))
      (core.drop (len - p) ++ t) g6 hsplit hDlen
  -- the scan runs over the p zeros and stops at the first core byte
  have hz : ∀ j, j < p →
      (List.replicate p 0 ++ core.take (len - p)).get? j = some 0 := by
    intro j hj
    rw [List.get?_append (by rw [List.length_replicate]; omega)]
    rw [List.get?_eq_getElem?]
    simp [List.getElem?_replicate, hj]
  have hgp : (List.replicate p 0 ++ core.take (len - p)).get? p = some c := by
    rw [List.get?_append_right (by rw [List.length_replicate])]
    rw [List.length_replicate, Nat.sub_self]
    rw [List.get?_take (by omega)]
    exact hc
  have hnz : (List.replicate p 0 ++ core.take (len - p)).get? p ≠ some 0 := by
    rw [hgp]
    intro hcon
    have : c = 0 := by injection hcon
    omega
  have hscan := scanLoop_zeros len (List.replicate p 0 ++ core.take (len - p))
    p s7 (by omega) hz hnz (restTotal s7 + len + 2) 0 (Nat.zero_le p) (by omega)
  rw [hgp] at hscan
  simp only [Nat.zero_add] at hscan
  -- the compensation pull
  by_cases hp0 : p = 0
  · subst hp0
    have hfin : List.replicate 0 (0 : Nat) ++ core.take (len - 0) = core := by
      rw [List.replicate_zero, List.nil_append, Nat.sub_zero, ← hcore,
        List.take_length]
    have r7' : rest s7 = t := by
      rw [r7, Nat.sub_zero, ← hcore, List.drop_length, List.nil_append]
    have hreads : parseReads len s = (.ok ⟨hsv, toSigned32 (leVal w),
        toSigned32 (leVal x), toSigned32 (leVal y), toSigned32 (leVal z),
        (if hsv = 24 then some (leVal idb) else none),
        List.replicate 0 0 ++ core, 0 + 1, some c⟩, s7) := by
      simp only [parseReads, e1, pstep_ok, if_neg hif, e2, e3, e4, e5, e6, e7,
        hscan]
      rw [if_neg (by omega : ¬ (1 > 1))]
      simp [hfin]
      omega
    refine ⟨rollBuffer s7, ?_, by simp [r7']⟩
    simp only [parseRest, hreads, pstep_ok]
  · have hlenD : (core.drop (len - p)).length = p := by
      rw [List.length_drop]
      omega
    obtain ⟨s8, e8, r8, g8, d8, _, _⟩ :=
      read_exact s7 p (core.drop (len - p)) t g7 r7 hlenD
    have hpay : (List.replicate p 0 ++ core.take (len - p)) ++
        core.drop (len - p) = List.replicate p 0 ++ core := by
      rw [List.append_assoc, List.take_append_drop]
    have hreads : parseReads len s = (.ok ⟨hsv, toSigned32 (leVal w),
        toSigned32 (leVal x), toSigned32 (leVal y), toSigned32 (leVal z),
        (if hsv = 24 then some (leVal idb) else none),
        List.replicate p 0 ++ core, p + 1, some c⟩, s8) := by
      simp only [parseReads, e1, pstep_ok, if_neg hif, e2, e3, e4, e5, e6, e7,
        hscan]
      rw [if_pos (by omega : p + 1 > 1)]
      rw [show p + 1 - 1 = p from by omega, e8]
      simp [hpay]
    refine ⟨rollBuffer s8, ?_, by simp [r8]⟩
    simp only [parseRest, hreads, pstep_ok]

/-- C3 (amended): when the number `p` of leading padding zeros satisfies
`p ≤ len - 2`, decoding the padded frame yields the same record — identical
priority, tag and message — as decoding the frame with the padding removed;
exactly `len + p` payload bytes are consumed and the following bytes `t` are
untouched in both runs.  (For `p ≥ len - 1` the scan over-pulls; see the
counterexample.) -/
theorem c3_padding_invariance (s₁ s₂ : PState) (len p hsv : Nat)
    (w x y z idb core t : List Nat) (c : Nat)
    (hg₁ : GoodState s₁) (he₁ : s₁.ended = false)
    (hg₂ : GoodState s₂) (he₂ : s₂.ended = false)
    (hhs : hsv = 0 ∨ hsv = 24)
    (hw : w.length = 4) (hx : x.length = 4) (hy : y.length = 4)
    (hz4 : z.length = 4) (hib : idb.length = (if hsv = 24 then 4 else 0))
    (hcore : core.length = len) (hple : p + 2 ≤ len)
    (hc : core.get? 0 = some c) (hc0 : c ≠ 0)
    (hr₁ : rest s₁ = enc16 hsv ++ (w ++ (x ++ (y ++ (z ++ (idb ++
      (List.replicate p 0 ++ (core ++ t))))))))
    (hr₂ : rest s₂ = enc16 hsv ++ (w ++ (x ++ (y ++ (z ++ (idb ++
      (core ++ t))))))) :
    ∃ s₁' s₂', parseRest len s₁ = (.ok (mkEntry ⟨hsv, toSigned32 (leVal w),
        toSigned32 (leVal x), toSigned32 (leVal y), toSigned32 (leVal z),
        (if hsv = 24 then some (leVal idb) else none), core, 1, some c⟩), s₁') ∧
      parseRest len s₂ = (.ok (mkEntry ⟨hsv, toSigned32 (leVal w),
        toSigned32 (leVal x), toSigned32 (leVal y), toSigned32 (leVal z),
        (if hsv = 24 then some (leVal idb) else none), core, 1, some c⟩), s₂') ∧
      rest s₁' = t ∧ rest s₂' = t := by
  have hne : core ≠ [] := by
    apply List.ne_nil_of_length_pos
    omega
  obtain ⟨s₁', e₁, r₁⟩ := parseRest_padded s₁ len p hsv w x y z idb core t c
    hg₁ he₁ hhs hw hx hy hz4 hib hcore hple hc hc0 hr₁
  obtain ⟨s₂', e₂, r₂⟩ := parseRest_padded s₂ len 0 hsv w x y z idb core t c
    hg₂ he₂ hhs hw hx hy hz4 hib hcore (by omega) hc hc0 (by rw [hr₂]; rfl)
  rw [mkEntry_shift _ _ _ _ _ _ _ _ _ hne] at e₁
  rw [mkEntry_shift _ _ _ _ _ _ _ _ _ hne] at e₂
  exact ⟨s₁', s₂', e₁, e₂, r₁, r₂⟩

/-- Witness for C3 at a concrete frame with one padding zero,
`len = 3`, core payload `[3, 65, 66]`, followed by a stray byte. -/
theorem c3_padding_invariance_witness :
    ∃ s₁' s₂', parseRest 3 ⟨enc16 0 ++ ([0,0,0,0] ++ ([0,0,0,0] ++ ([0,0,0,0] ++
        ([0,0,0,0] ++ ([] ++ (List.replicate 1 0 ++ ([3, 65, 66] ++ [9]))))))),
        0, 0, false, []⟩
      = (.ok (mkEntry ⟨0, toSigned32 (leVal [0,0,0,0]),
          toSigned32 (leVal [0,0,0,0]), toSigned32 (leVal [0,0,0,0]),
          toSigned32 (leVal [0,0,0,0]),
          (if (0 : Nat) = 24 then some (leVal []) else none),
          [3, 65, 66], 1, some 3⟩), s₁') ∧
      parseRest 3 ⟨enc16 0 ++ ([0,0,0,0] ++ ([0,0,0,0] ++ ([0,0,0,0] ++
        ([0,0,0,0] ++ ([] ++ ([3, 65, 66] ++ [9])))))), 0, 0, false, []⟩
      = (.ok (mkEntry ⟨0, toSigned32 (leVal [0,0,0,0]),
          toSigned32 (leVal [0,0,0,0]), toSigned32 (leVal [0,0,0,0]),
          toSigned32 (leVal [0,0,0,0]),
          (if (0 : Nat) = 24 then some (leVal []) else none),
          [3, 65, 66], 1, some 3⟩), s₂') ∧
      rest s₁' = [9] ∧ rest s₂' = [9] :=
  c3_padding_invariance _ _ 3 1 0 [0,0,0,0] [0,0,0,0] [0,0,0,0] [0,0,0,0] []
    [3, 65, 66] [9] 3 (by decide) rfl (by decide) rfl (Or.inl rfl) rfl rfl rfl
    rfl (by decide) rfl (by decide) rfl (by decide) (by decide) (by decide)

/-- Padded counterexample stream: a frame with `len = 2` whose payload read is
`[0, 3]` (`padCount = len - 1`), followed by a well-formed frame. -/
def c3padded : List Nat :=
  [2, 0] ++ [0, 0] ++ List.replicate 16 0 ++ [0, 3] ++
    encodeFrame ⟨0, 0, 0, 0, 0, 0, [4]⟩

/-- The same stream with the padding byte removed (`len = 1`, payload `[3]`). -/
def c3stripped : List Nat :=
  [1, 0] ++ [0, 0] ++ List.replicate 16 0 ++ [3] ++
    encodeFrame ⟨0, 0, 0, 0, 0, 0, [4]⟩

/-- Counterexample to C3 as stated: with `padCount = len - 1` the scan pulls
`len` extra bytes mid-scan (`priorityIndex >= len` compares against `len`,
not the grown payload), so the record's tag differs from the padding-removed
run and the following frame is destroyed (the run even ends in a truncation
error instead of decoding the second frame). -/
theorem c3_counterexample :
    (runParser [c3padded] false false).1.length = 1 ∧
    (runParser [c3stripped] false false).1.length = 2 ∧
    (runParser [c3padded] false false).2.1 = .raised .insufficientBytes ∧
    (runParser [c3stripped] false false).2.1 = .clean := by
  exact ⟨by decide, by decide, by decide, by decide⟩

theorem take_split (d D : List Nat) (k : Nat) (h : d.length ≤ k) :
    (d ++ D).take k = d ++ D.take (k - d.length) := by
  rw [List.take_append_eq_append_take, List.take_all_of_le h]

/-- A decode iteration on a strict prefix of a well-formed frame's post-length
encoding fails with `insufficientBytes`: some exact-size read runs past the
truncation point before any record can be assembled. -/
theorem parseRest_truncated (g : Frame) (k : Nat) (s : PState)
    (hwg : WFFrame g) (hg : GoodState s) (he : s.ended = false)
    (hk : k < (encTail g).length)
    (hr : rest s = (encTail g).take k) :
    ∃ s', parseRest g.payload.length s = (.err .insufficientBytes, s') := by
  have hassoc : encTail g = enc16 g.headerSize ++ (enc32 g.pid ++ (enc32 g.tid
      ++ (enc32 g.sec ++ (enc32 g.nsec ++
      ((if g.headerSize = 24 then enc32 g.id else []) ++ g.payload))))) := by
    rw [encTail]
    simp [List.append_assoc]
  have hhs16 : g.headerSize < 65536 := by rcases hwg.1 with h | h <;> omega
  have hif : ¬ (g.headerSize ≠ 24 ∧ g.headerSize ≠ 0) := by
    rcases hwg.1 with h | h <;> simp [h]
  by_cases hc1 : k < 2
  · have hlen : (rest s).length < 2 := by
      rw [hr]
      have := List.length_take_le k (encTail g)
      omega
    obtain ⟨sE, heE, _⟩ := read_err s 2 hg hlen
    have hu : readU16 s = (.err .insufficientBytes, sE) := by
      simp only [readU16]
      rw [heE]
      rfl
    exact ⟨sE, by simp only [parseRest, parseReads, hu, pstep_err]⟩
  · have hr1 : rest s = enc16 g.headerSize ++ ((enc32 g.pid ++ (enc32 g.tid
        ++ (enc32 g.sec ++ (enc32 g.nsec ++
        ((if g.headerSize = 24 then enc32 g.id else []) ++
          g.payload))))).take (k - 2)) := by
      rw [hr, hassoc, take_split _ _ _ (by simp; omega)]
      simp
    obtain ⟨s1, e1, r1, g1, d1⟩ := readU16_exact s g.headerSize _ hg hr1 hhs16
    have hend1 : s1.ended = false := d1.trans he
    by_cases hc2 : k - 2 < 4
    · have hlen : (rest s1).length < 4 := by
        rw [r1]
        have h1 := List.length_take_le (k - 2) (enc32 g.pid ++ (enc32 g.tid
          ++ (enc32 g.sec ++ (enc32 g.nsec ++
          ((if g.headerSize = 24 then enc32 g.id else []) ++ g.payload)))))
        simp at h1 ⊢
        omega
      obtain ⟨sE, heE, _⟩ := read_err s1 4 g1 hlen
      have hu : readI32 s1 = (.err .insufficientBytes, sE) := by
        simp only [readI32]
        rw [heE]
        rfl
      exact ⟨sE, by simp only [parseRest, parseReads, e1, pstep_ok,
        if_neg hif, hu, pstep_err]⟩
    · have hr2 : rest s1 = enc32 g.pid ++ ((enc32 g.tid ++ (enc32 g.sec ++
          (enc32 g.nsec ++ ((if g.headerSize = 24 then enc32 g.id else []) ++
          g.payload)))).take (k - 2 - 4)) := by
        rw [r1, take_split _ _ _ (by simp; omega)]
        simp
      obtain ⟨s2, e2, r2, g2, d2⟩ := readI32_exact s1 g.pid _ g1 hr2 hwg.2.2.1
      have hend2 : s2.ended = false := d2.trans hend1
      by_cases hc3 : k - 2 - 4 < 4
      · have hlen : (rest s2).length < 4 := by
          rw [r2]
          have h1 := List.length_take_le (k - 2 - 4) (enc32 g.tid ++
            (enc32 g.sec ++ (enc32 g.nsec ++
            ((if g.headerSize = 24 then enc32 g.id else []) ++ g.payload))))
          simp at h1 ⊢
          omega
        obtain ⟨sE, heE, _⟩ := read_err s2 4 g2 hlen
        have hu : readI32 s2 = (.err .insufficientBytes, sE) := by
          simp only [readI32]
          rw [heE]
          rfl
        exact ⟨sE, by simp only [parseRest, parseReads, e1, pstep_ok,
          if_neg hif, e2, hu, pstep_err]⟩
      · have hr3 : rest s2 = enc32 g.tid ++ ((enc32 g.sec ++ (enc32 g.nsec ++
            ((if g.headerSize = 24 then enc32 g.id else []) ++
            g.payload))).take (k - 2 - 4 - 4)) := by
          rw [r2, take_split _ _ _ (by simp; omega)]
          simp
        obtain ⟨s3, e3, r3, g3, d3⟩ :=
          readI32_exact s2 g.tid _ g2 hr3 hwg.2.2.2.1
        have hend3 : s3.ended = false := d3.trans hend2
        by_cases hc4 : k - 2 - 4 - 4 < 4
        · have hlen : (rest s3).length < 4 := by
            rw [r3]
            have h1 := List.length_take_le (k - 2 - 4 - 4) (enc32 g.sec ++
              (enc32 g.nsec ++ ((if g.headerSize = 24 then enc32 g.id
              else []) ++ g.payload)))
            simp at h1 ⊢
            omega
          obtain ⟨sE, heE, _⟩ := read_err s3 4 g3 hlen
          have hu : readI32 s3 = (.err .insufficientBytes, sE) := by
            simp only [readI32]
            rw [heE]
            rfl
          exact ⟨sE, by simp only [parseRest, parseReads, e1, pstep_ok,
            if_neg hif, e2, e3, hu, pstep_err]⟩
        · have hr4 : rest s3 = enc32 g.sec ++ ((enc32 g.nsec ++
              ((if g.headerSize = 24 then enc32 g.id else []) ++
              g.payload)).take (k - 2 - 4 - 4 - 4)) := by
            rw [r3, take_split _ _ _ (by simp; omega)]
            simp
          obtain ⟨s4, e4, r4, g4, d4⟩ :=
            readI32_exact s3 g.sec _ g3 hr4 hwg.2.2.2.2.1
          have hend4 : s4.ended = false := d4.trans hend3
          by_cases hc5 : k - 2 - 4 - 4 - 4 < 4
          · have hlen : (rest s4).length < 4 := by
              rw [r4]
              have h1 := List.length_take_le (k - 2 - 4 - 4 - 4)
                (enc32 g.nsec ++ ((if g.headerSize = 24 then enc32 g.id
                else []) ++ g.payload))
              simp at h1 ⊢
              omega
            obtain ⟨sE, heE, _⟩ := read_err s4 4 g4 hlen
            have hu : readI32 s4 = (.err .insufficientBytes, sE) := by
              simp only [readI32]
              rw [heE]
              rfl
            exact ⟨sE, by simp only [parseRest, parseReads, e1, pstep_ok,
              if_neg hif, e2, e3, e4, hu, pstep_err]⟩
          · have hr5 : rest s4 = enc32 g.nsec ++
                (((if g.headerSize = 24 then enc32 g.id else []) ++
                g.payload).take (k - 2 - 4 - 4 - 4 - 4)) := by
              rw [r4, take_split _ _ _ (by simp; omega)]
              simp
            obtain ⟨s5, e5, r5, g5, d5⟩ :=
              readI32_exact s4 g.nsec _ g4 hr5 hwg.2.2.2.2.2.1
            have hend5 : s5.ended = false := d5.trans hend4
            have hplen : 1 ≤ g.payload.length := by
              obtain ⟨c, hc, _, _⟩ := hwg.2.2.2.2.2.2.2.2
              cases hpay : g.payload with
              | nil => rw [hpay] at hc; simp at hc
              | cons a as => simp [hpay]
            rcases hwg.1 with h0 | h24
            · -- no id field: the payload read must fail
              have hio : readIdOpt g.headerSize s5 = (.ok none, s5) := by
                unfold readIdOpt
                rw [if_neg (by omega)]
              have hT : (encTail g).length = 18 + g.payload.length := by
                rw [encTail]
                simp [h0]
                omega
              have hr6 : rest s5 = g.payload.take (k - 2 - 4 - 4 - 4 - 4) := by
                rw [r5, h0]
                simp
              have hlen : (rest s5).length < g.payload.length := by
                rw [hr6]
                have h1 := List.length_take_le (k - 2 - 4 - 4 - 4 - 4) g.payload
                omega
              obtain ⟨sE, heE, _⟩ := read_err s5 g.payload.length g5 hlen
              exact ⟨sE, by simp only [parseRest, parseReads, e1, pstep_ok,
                if_neg hif, e2, e3, e4, e5, hio, heE, pstep_err]⟩
            · have hT : (encTail g).length = 22 + g.payload.length := by
                rw [encTail]
                simp [h24]
                omega
              by_cases hc6 : k - 2 - 4 - 4 - 4 - 4 < 4
              · -- the id read fails
                have hlen : (rest s5).length < 4 := by
                  rw [r5, h24]
                  have h1 := List.length_take_le (k - 2 - 4 - 4 - 4 - 4)
                    (enc32 g.id ++ g.payload)
                  simp at h1 ⊢
                  omega
                obtain ⟨sE, heE, _⟩ := read_err s5 4 g5 hlen
                have hu : readIdOpt g.headerSize s5
                    = (.err .insufficientBytes, sE) := by
                  unfold readIdOpt
                  rw [if_pos h24, heE]
                  rfl
                exact ⟨sE, by simp only [parseRest, parseReads, e1, pstep_ok,
                  if_neg hif, e2, e3, e4, e5, hu, pstep_err]⟩
              · have hr6 : rest s5 = enc32 g.id ++
                    (g.payload.take (k - 2 - 4 - 4 - 4 - 4 - 4)) := by
                  rw [r5, h24, take_split _ _ _ (by simp; omega)]
                  simp
                obtain ⟨s6, e6r, r6, g6, d6, _, _⟩ :=
                  read_exact s5 4 (enc32 g.id) _ g5 hr6 (by simp)
                have hio : readIdOpt g.headerSize s5
                    = (.ok (some (leVal (enc32 g.id))), s6) := by
                  unfold readIdOpt
                  rw [if_pos h24, e6r]
                  rfl
                have hlen : (rest s6).length < g.payload.length := by
                  rw [r6]
                  have h1 := List.length_take_le (k - 2 - 4 - 4 - 4 - 4 - 4)
                    g.payload
                  omega
                obtain ⟨sE, heE, _⟩ := read_err s6 g.payload.length g6 hlen
                exact ⟨sE, by simp only [parseRest, parseReads, e1, pstep_ok,
                  if_neg hif, e2, e3, e4, e5, hio, heE, pstep_err]⟩

/-- The decode loop on a strict non-empty prefix of one well-formed frame:
no record is yielded, and the loop ends with `insufficientBytes`, swallowed
under `noError` and propagated otherwise. -/
theorem go_truncated (nE : Bool) (g : Frame) (k fuel : Nat) (s : PState)
    (hwg : WFFrame g) (hg : GoodState s) (he : s.ended = false)
    (hk1 : 1 ≤ k) (hk2 : k < (encodeFrame g).length)
    (hr : rest s = (encodeFrame g).take k) :
    (go nE false (fuel + 1) s).1 = [] ∧
    (go nE false (fuel + 1) s).2.1
      = (if nE then Termination.swallowed .insufficientBytes
         else .raised .insufficientBytes) := by
  have henc : encodeFrame g = enc16 g.payload.length ++ encTail g := rfl
  by_cases hc1 : k < 2
  · -- truncated inside the length field itself: one byte remains
    have hk1' : k = 1 := by omega
    subst hk1'
    have hlen : (rest s).length < 2 := by
      rw [hr]
      have := List.length_take_le 1 (encodeFrame g)
      omega
    obtain ⟨s', e', hrst, hav, hpend, hend, hg', hcur, hpre⟩ :=
      read_err s 2 hg hlen
    have hu : readU16 s = (.err .insufficientBytes, s') := by
      simp only [readU16]
      rw [e']
      rfl
    have hbav : bytesAvailable s' = 1 := by
      have h1 := availList_length s'
      rw [hav, hr] at h1
      have h2 : ((encodeFrame g).take 1).length = 1 := by
        rw [List.length_take_of_le]
        rw [henc]
        simp
        omega
      omega
    simp only [go]
    rw [if_pos (Or.inl he), hu]
    simp only [hbav]
    rw [if_neg (by omega)]
    cases nE <;> simp [finishErr]
  · have hr1 : rest s = enc16 g.payload.length ++ ((encTail g).take (k - 2)) := by
      rw [hr, henc, take_split _ _ _ (by simp; omega)]
      simp
    obtain ⟨s1, e1, r1, g1, d1⟩ :=
      readU16_exact s g.payload.length _ hg hr1 hwg.2.1
    have hkt : k - 2 < (encTail g).length := by
      rw [henc, List.length_append] at hk2
      simp at hk2
      omega
    obtain ⟨sE, hE⟩ := parseRest_truncated g (k - 2) s1 hwg g1 (d1.trans he) hkt r1
    simp only [go]
    rw [if_pos (Or.inl he), e1]
    simp only []
    rw [hE]
    cases nE <;> simp [finishErr]

/-- The decode loop on well-formed frames followed by a truncated frame:
exactly the complete frames' records are yielded, then the loop fails with
`insufficientBytes` (swallowed under `noError`). -/
theorem go_frames_truncated (nE : Bool) :
    ∀ (fs : List Frame) (g : Frame) (k fuel : Nat) (s : PState),
    (∀ f ∈ fs, WFFrame f) → WFFrame g → GoodState s → s.ended = false →
    rest s = encodeFrames fs ++ (encodeFrame g).take k →
    1 ≤ k → k < (encodeFrame g).length → fs.length < fuel →
    (go nE false fuel s).1 = fs.map recordOf ∧
    (go nE false fuel s).2.1
      = (if nE then Termination.swallowed .insufficientBytes
         else .raised .insufficientBytes) := by
  intro fs
  induction fs with
  | nil =>
    intro g k fuel s _ hwg hg he hr hk1 hk2 hf
    cases fuel with
    | zero => exact (Nat.not_lt_zero _ hf).elim
    | succ F =>
      have hr' : rest s = (encodeFrame g).take k := by
        rw [hr, encodeFrames_nil, List.nil_append]
      exact go_truncated nE g k F s hwg hg he hk1 hk2 hr'
  | cons f fs ih =>
    intro g k fuel s hwf hwg hg he hr hk1 hk2 hf
    cases fuel with
    | zero => exact (Nat.not_lt_zero _ hf).elim
    | succ F =>
      have hwff : WFFrame f := hwf f (by simp)
      have hr' : rest s = enc16 f.payload.length ++
          (encTail f ++ (encodeFrames fs ++ (encodeFrame g).take k)) := by
        rw [hr, encodeFrames_cons, encodeFrame]
        simp [List.append_assoc]
      obtain ⟨s1, e1, r1, g1, d1⟩ :=
        readU16_exact s f.payload.length _ hg hr' hwff.2.1
      obtain ⟨s2, e2, r2, g2, d2, _⟩ :=
        parseRest_frame f (encodeFrames fs ++ (encodeFrame g).take k) s1 hwff
          g1 (d1.trans he) r1
      have hflen : fs.length < F := by
        have : (f :: fs).length = fs.length + 1 := rfl
        omega
      have hrec := ih g k F s2 (fun h hmem => hwf h (by simp [hmem])) hwg g2 d2
        r2 hk1 hk2 hflen
      simp only [go]
      rw [if_pos (Or.inl he), e1]
      simp only []
      rw [e2]
      simp only []
      refine ⟨?_, ?_⟩
      · show recordOf f :: (go nE false F s2).1 = _
        rw [hrec.1]
        rfl
      · show (go nE false F s2).2.1 = _
        exact hrec.2

/-- C7: a stream of well-formed frames that ends partway through a further
frame yields exactly the complete frames' records — never a partially
populated one — and then fails with the `insufficientBytes` truncation error
(silently swallowed under `suppressErrors`); it does not terminate cleanly. -/
theorem c7_truncation (fs : List Frame) (g : Frame) (k : Nat) (nE : Bool)
    (hwf : ∀ f ∈ fs, WFFrame f) (hwg : WFFrame g)
    (hk1 : 1 ≤ k) (hk2 : k < (encodeFrame g).length) :
    (runParser [encodeFrames fs ++ (encodeFrame g).take k] nE false).1
      = fs.map recordOf ∧
    (runParser [encodeFrames fs ++ (encodeFrame g).take k] nE false).2.1
      = (if nE then Termination.swallowed .insufficientBytes
         else .raised .insufficientBytes) := by
  have hrest : rest (initState [encodeFrames fs ++ (encodeFrame g).take k])
      = encodeFrames fs ++ (encodeFrame g).take k := by
    simp [rest, initState, availList]
  have hfuel : fs.length < sumLens [encodeFrames fs ++ (encodeFrame g).take k] + 1 := by
    have h1 := encodeFrames_length_ge fs
    have h2 : sumLens [encodeFrames fs ++ (encodeFrame g).take k]
        = (encodeFrames fs).length + ((encodeFrame g).take k).length := by
      rw [sumLens_eq_flatten_length]
      simp
    omega
  exact go_frames_truncated nE fs g k _ (initState _) hwf hwg
    ⟨Nat.le_refl 0, by intro h; exact absurd h (by simp [initState])⟩
    rfl hrest hk1 hk2 hfuel

/-- Witness for C7: one complete sample frame followed by the first three
bytes of a second one, with errors propagated. -/
theorem c7_truncation_witness :
    (runParser [encodeFrames [sampleFrame] ++ (encodeFrame sampleFrame).take 3]
      false false).1 = [sampleFrame].map recordOf ∧
    (runParser [encodeFrames [sampleFrame] ++ (encodeFrame sampleFrame).take 3]
      false false).2.1
      = (if false then Termination.swallowed .insufficientBytes
         else .raised .insufficientBytes) :=
  c7_truncation [sampleFrame] sampleFrame 3 false (by decide) (by decide)
    (by decide) (by decide)

/-- Relation between a state and a later state of the same frame's read
phase: the invariant still holds, the buffer has only been appended to (so
already-buffered frame bytes keep their positions), and the cursor has only
advanced. -/
def BufMono (s t : PState) : Prop :=
  GoodState t ∧ s.buffer <+: t.buffer ∧ s.cursor ≤ t.cursor

theorem bufMono_refl (s : PState) (hg : GoodState s) : BufMono s s :=
  ⟨hg, List.prefix_refl _, Nat.le_refl _⟩

theorem bufMono_trans {s t u : PState} (h1 : BufMono s t) (h2 : BufMono t u) :
    BufMono s u :=
  ⟨h2.1, h1.2.1.trans h2.2.1, Nat.le_trans h1.2.2 h2.2.2⟩

@[simp] theorem mapVal_snd {α β : Type} (f : α → β) (m : PRes α × PState) :
    (mapVal f m).2 = m.2 := by
  rcases m with ⟨r, s⟩
  cases r <;> rfl

theorem read_mono (s : PState) (n : Nat) (hg : GoodState s) :
    BufMono s (read s n).2 := by
  by_cases hn : n ≤ (rest s).length
  · obtain ⟨s', h1, h2, h3, h4, h5, h6⟩ := read_ok s n hg hn
    rw [h1]
    exact ⟨h3, h5, h6⟩
  · obtain ⟨s', h1, h2, h3, h4, h5, h6, h7, h8⟩ := read_err s n hg (by omega)
    rw [h1]
    exact ⟨h6, h8, Nat.le_of_eq h7.symm⟩

theorem pstep_mono {α β : Type} (m : PRes α × PState)
    (f : α → PState → PRes β × PState) (s : PState)
    (hm : BufMono s m.2)
    (hf : ∀ a, GoodState m.2 → BufMono m.2 (f a m.2).2) :
    BufMono s (pstep m f).2 := by
  rcases m with ⟨r, sm⟩
  cases r with
  | ok a => exact bufMono_trans hm (hf a hm.1)
  | err e => exact hm
  | fuelOut => exact hm

theorem scanLoop_mono : ∀ (fuel : Nat) (pr : Option Nat) (pIdx : Nat)
    (payload : List Nat) (len : Nat) (s : PState), GoodState s →
    BufMono s (scanLoop fuel pr pIdx payload len s).2 := by
  intro fuel
  induction fuel with
  | zero => intro pr pIdx payload len s hg; exact bufMono_refl s hg
  | succ F ih =>
    intro pr pIdx payload len s hg
    cases pr with
    | none => exact bufMono_refl s hg
    | some v =>
      cases v with
      | succ k => exact bufMono_refl s hg
      | zero =>
        by_cases hc : pIdx + 1 ≥ len
        · have hrd := read_mono s len hg
          rcases hread : read s len with ⟨r0, sm⟩
          rw [hread] at hrd
          have hstep : scanLoop (F + 1) (some 0) pIdx payload len s
              = match read s len with
                | (.ok d, s') => scanLoop F (payload.get? pIdx) (pIdx + 1)
                    (payload ++ d) len s'
                | (.err e, s') => (.err e, s')
                | (.fuelOut, s') => (.fuelOut, s') := by
            simp only [scanLoop]
            rw [if_pos hc]
          rw [hstep, hread]
          cases r0 with
          | ok d => exact bufMono_trans hrd (ih _ _ _ _ sm hrd.1)
          | err e => exact hrd
          | fuelOut => exact hrd
        · have hstep : scanLoop (F + 1) (some 0) pIdx payload len s
              = scanLoop F (payload.get? pIdx) (pIdx + 1) payload len s := by
            simp only [scanLoop]
            rw [if_neg hc]
          rw [hstep]
          exact ih _ _ _ _ s hg

theorem readU16_mono (s : PState) (hg : GoodState s) :
    BufMono s (readU16 s).2 := by
  rw [readU16, mapVal_snd]
  exact read_mono s 2 hg

theorem readI32_mono (s : PState) (hg : GoodState s) :
    BufMono s (readI32 s).2 := by
  rw [readI32, mapVal_snd]
  exact read_mono s 4 hg

theorem readIdOpt_mono (hs : Nat) (s : PState) (hg : GoodState s) :
    BufMono s (readIdOpt hs s).2 := by
  unfold readIdOpt
  by_cases h : hs = 24
  · rw [if_pos h, mapVal_snd]
    exact read_mono s 4 hg
  · rw [if_neg h]
    exact bufMono_refl s hg

/-- The whole read phase of one decode iteration never discards buffered
bytes: the buffer is only appended to and the cursor only advances. -/
theorem parseReads_mono (len : Nat) (s : PState) (hg : GoodState s) :
    BufMono s (parseReads len s).2 := by
  unfold parseReads
  refine pstep_mono _ _ _ (readU16_mono s hg) ?_
  intro hs hg1
  by_cases hv : hs ≠ 24 ∧ hs ≠ 0
  · rw [if_pos hv]
    exact bufMono_refl _ hg1
  · rw [if_neg hv]
    refine pstep_mono _ _ _ (readI32_mono _ hg1) ?_
    intro pid hg2
    refine pstep_mono _ _ _ (readI32_mono _ hg2) ?_
    intro tid hg3
    refine pstep_mono _ _ _ (readI32_mono _ hg3) ?_
    intro sec hg4
    refine pstep_mono _ _ _ (readI32_mono _ hg4) ?_
    intro nsec hg5
    refine pstep_mono _ _ _ (readIdOpt_mono hs _ hg5) ?_
    intro idv hg6
    refine pstep_mono _ _ _ (read_mono _ len hg6) ?_
    intro payload hg7
    refine pstep_mono _ _ _ (scanLoop_mono _ _ _ _ _ _ hg7) ?_
    intro scr hg8
    refine pstep_mono _ _ _ ?_ ?_
    · by_cases hpull : scr.2.1 > 1
      · rw [if_pos hpull]
        exact read_mono _ _ hg8
      · rw [if_neg hpull]
        exact bufMono_refl _ hg8
    · intro extra hg9
      exact bufMono_refl _ hg9

/-- C9: the decoder's buffer invariants.  The cursor never exceeds the buffer
length after data arrival, any read, a roll or a clear; data arrival and the
whole read phase of a frame only append to the buffer (never discarding
consumed prefix bytes, so a frame's bytes stay contiguous and addressable);
and a successful decode iteration discards consumed bytes exactly once, by
the roll applied at the frame boundary after the payload has been fully
consumed. -/
theorem c9_buffer_invariants :
    (∀ s d, GoodState s → GoodState (onData s d) ∧
      s.buffer <+: (onData s d).buffer ∧ (onData s d).cursor = s.cursor) ∧
    (∀ s n, GoodState s → BufMono s (read s n).2) ∧
    (∀ s, GoodState s → GoodState (rollBuffer s) ∧ (rollBuffer s).cursor = 0 ∧
      (rollBuffer s).buffer = s.buffer.drop s.cursor) ∧
    (∀ s, GoodState s → GoodState (clearBuffer s)) ∧
    (∀ len s, GoodState s → BufMono s (parseReads len s).2) ∧
    (∀ len s e s', parseRest len s = (.ok e, s') → GoodState s →
      ∃ raw sm, parseReads len s = (.ok raw, sm) ∧ e = mkEntry raw ∧
        s' = rollBuffer sm ∧ s.buffer <+: sm.buffer ∧
        sm.cursor ≤ sm.buffer.length) := by
  refine ⟨?_, ?_, ?_, ?_, ?_, ?_⟩
  · intro s d hg
    unfold onData
    by_cases h : (s.buffer ++ d).length - s.cursor ≥ s.bytesToRead
    · rw [if_pos h]
      refine ⟨⟨?_, hg.2⟩, List.prefix_append _ _, rfl⟩
      simp only [List.length_append]
      have := hg.1
      omega
    · rw [if_neg h]
      refine ⟨⟨?_, hg.2⟩, List.prefix_append _ _, rfl⟩
      simp only [List.length_append]
      have := hg.1
      omega
  · intro s n hg
    exact read_mono s n hg
  · intro s hg
    exact ⟨rollBuffer_good s hg, rfl, rfl⟩
  · intro s hg
    exact ⟨Nat.zero_le _, hg.2⟩
  · intro len s hg
    exact parseReads_mono len s hg
  · intro len s e s' hps hg
    have hm := parseReads_mono len s hg
    rcases hraw : parseReads len s with ⟨r, sm⟩
    rw [hraw] at hm
    cases r with
    | ok raw =>
      have : parseRest len s = (.ok (mkEntry raw), rollBuffer sm) := by
        simp only [parseRest, hraw, pstep_ok]
      rw [this] at hps
      have he : e = mkEntry raw := by
        have := congrArg Prod.fst hps
        simp at this
        exact this.symm
      have hs' : s' = rollBuffer sm := by
        have := congrArg Prod.snd hps
        simp at this
        exact this.symm
      exact ⟨raw, sm, rfl, he, hs', hm.2.1, hm.1.1⟩
    | err e2 =>
      exfalso
      have : parseRest len s = (.err e2, sm) := by
        simp only [parseRest, hraw, pstep_err]
      rw [this] at hps
      simp at hps
    | fuelOut =>
      exfalso
      have : parseRest len s = (.fuelOut, sm) := by
        simp only [parseRest, hraw, pstep_fuelOut]
      rw [this] at hps
      simp at hps

/-- Witness for C9 on a concrete state: appending a chunk preserves the
cursor bound, keeps the old buffer as a prefix, and leaves the cursor
unchanged. -/
theorem c9_buffer_invariants_witness :
    GoodState (onData ⟨[1, 2], 1, 0, false, []⟩ [3]) ∧
    ([1, 2] : List Nat) <+: (onData ⟨[1, 2], 1, 0, false, []⟩ [3]).buffer ∧
    (onData ⟨[1, 2], 1, 0, false, []⟩ [3]).cursor
      = (⟨[1, 2], 1, 0, false, []⟩ : PState).cursor :=
  c9_buffer_invariants.1 ⟨[1, 2], 1, 0, false, []⟩ [3] (by decide)

end Logcat

namespace LineFeed

/-
Embedding of `LineFeedTransform`: the byte-stream corrector that rewrites the
platform corruption pattern (CR LF, or CR CR LF on Windows, selected once by
the `win` flag) back to the single byte named `originalLineFeed` (0x0D) in the
source.  `lastSuspiciousBytes` is modelled by a plain list, the empty list
standing for `null` (it is only ever assigned non-empty slices).
-/

/-- `originalLineFeed` of the source: the single byte 0x0D. -/
def originalLineFeed : List Nat := [13]

/-- `replacedLineFeed` of the source, selected once from the host platform:
CR CR LF on Windows, CR LF elsewhere. -/
def replacedLineFeed (win : Bool) : List Nat :=
  if win then [13, 13, 10] else [13, 10]

theorem replacedLineFeed_len (win : Bool) : 2 ≤ (replacedLineFeed win).length := by
  cases win <;> simp [replacedLineFeed]

/-- `Buffer.indexOf(pattern, start)`: the leftmost fully contained occurrence
of the pattern at or after `start`. -/
def findIndex (win : Bool) (x : List Nat) (start : Nat) : Option Nat :=
  if h : start + (replacedLineFeed win).length ≤ x.length then
    if replacedLineFeed win <+: x.drop start then some start
    else findIndex win x (start + 1)
  else none
  termination_by x.length - start
  decreasing_by
    have h2 := replacedLineFeed_len win
    omega

/-- JavaScript-style slice (same clamping as the decoder's). -/
def slice (l : List Nat) (a b : Nat) : List Nat := (l.drop a).take (b - a)

/-- A found index lies at or after `start` and the occurrence fits in `x`. -/
theorem findIndex_some_bounds (win : Bool) (x : List Nat) :
    ∀ start i, findIndex win x start = some i →
      start ≤ i ∧ i + (replacedLineFeed win).length ≤ x.length := by
  have H : ∀ n start i, x.length - start ≤ n → findIndex win x start = some i →
      start ≤ i ∧ i + (replacedLineFeed win).length ≤ x.length := by
    intro n
    induction n with
    | zero =>
      intro start i hn h
      unfold findIndex at h
      rw [dif_neg (by have := replacedLineFeed_len win; omega)] at h
      exact absurd h (by simp)
    | succ n ih =>
      intro start i hn h
      unfold findIndex at h
      by_cases hg : start + (replacedLineFeed win).length ≤ x.length
      · rw [dif_pos hg] at h
        by_cases hp : replacedLineFeed win <+: x.drop start
        · rw [if_pos hp] at h
          injection h with h
          omega
        · rw [if_neg hp] at h
          have h4 := ih (start + 1) i (by have := replacedLineFeed_len win; omega) h
          omega
      · rw [dif_neg hg] at h
        exact absurd h (by simp)
  exact fun start i h => H (x.length - start) start i (le_refl _) h

/-- The pattern-replacing `while` loop of `_transform`: for each full
occurrence, push the bytes before it and one `originalLineFeed`; returns the
concatenated pushes and the final `lastSegmentStart`. -/
def scanMatches (win : Bool) (x : List Nat) (start : Nat) : List Nat × Nat :=
  match hfi : findIndex win x start with
  | some i =>
    let r := scanMatches win x (i + (replacedLineFeed win).length)
    (slice x start i ++ originalLineFeed ++ r.1, r.2)
  | none => ([], start)
  termination_by x.length - start
  decreasing_by
    have h2 := replacedLineFeed_len win
    have h3 := findIndex_some_bounds win x start i hfi
    omega

/-- `indexOfSubpattern` of the source, from position `i` on: the first
position whose suffix matches a (proper or full) leading part of the
pattern. -/
def subIdxFrom (win : Bool) (x : List Nat) (i : Nat) : Option Nat :=
  if h : i < x.length then
    if x.drop i <+: replacedLineFeed win then some i
    else subIdxFrom win x (i + 1)
  else none
  termination_by x.length - i

/-- `indexOfSubpattern(chunk, replacedLineFeed)` as called by `_transform`:
the scan starts at `length - patternLength + 1`, clamped at zero (which the
truncated Nat subtraction below performs). -/
def subIdx (win : Bool) (x : List Nat) : Option Nat :=
  subIdxFrom win x (x.length + 1 - (replacedLineFeed win).length)

/-- One `_transform` call on chunk `c` with held-back bytes `held`
(`lastSuspiciousBytes`, the empty list standing for `null`): returns the
pushed output and the new held-back bytes. -/
def transformStep (win : Bool) (held c : List Nat) : List Nat × List Nat :=
  let chunk := held ++ c
  let m := scanMatches win chunk 0
  if m.2 < chunk.length then
    match subIdx win chunk with
    | some i => (m.1 ++ slice chunk m.2 i, chunk.drop i)
    | none => (m.1 ++ chunk.drop m.2, [])
  else (m.1, [])

/-- Feed the chunk list through `_transform` and finish with `_flush`, which
pushes any held-back bytes verbatim; the result is the concatenated pushed
output. -/
def runCorrector (win : Bool) (cs : List (List Nat)) : List Nat :=
  let r := cs.foldl
    (fun acc c =>
      let st := transformStep win acc.2 c
      (acc.1 ++ st.1, st.2))
    (([] : List Nat), ([] : List Nat))
  r.1 ++ r.2

/-- Modelled from the specification's words, not from the code: scan left to
right and replace every (leftmost, non-overlapping) occurrence of the
corruption pattern by the single original line-feed byte, leaving every
other byte unchanged. -/
def specRewrite (win : Bool) (x : List Nat) : List Nat :=
  if h : replacedLineFeed win <+: x then
    originalLineFeed ++ specRewrite win (x.drop (replacedLineFeed win).length)
  else
    match x with
    | [] => []
    | a :: x' => a :: specRewrite win x'
  termination_by x.length
  decreasing_by
    · have h1 := h.length_le
      have h2 := replacedLineFeed_len win
      simp
      omega
    · simp

/-- Unfolding equation of `specRewrite` at an occurrence. -/
theorem specRewrite_pos (win : Bool) (x : List Nat)
    (h : replacedLineFeed win <+: x) :
    specRewrite win x =
      originalLineFeed ++ specRewrite win (x.drop (replacedLineFeed win).length) := by
  rw [specRewrite]
  rw [dif_pos h]

/-- Unfolding equation of `specRewrite` on a non-matching head byte. -/
theorem specRewrite_neg_cons (win : Bool) (a : Nat) (x' : List Nat)
    (h : ¬ (replacedLineFeed win <+: a :: x')) :
    specRewrite win (a :: x') = a :: specRewrite win x' := by
  rw [specRewrite]
  rw [dif_neg h]

/-- `specRewrite` on the empty list. -/
theorem specRewrite_nil (win : Bool) : specRewrite win [] = [] := by
  rw [specRewrite]
  rw [dif_neg (by
    intro h
    have h1 := h.length_le
    have h2 := replacedLineFeed_len win
    simp only [List.length_nil, Nat.le_zero] at h1
    omega)]

/-- A pattern occurrence needs room: if the pattern is a prefix of `x.drop j`
then the occurrence fits inside `x`. -/
theorem occur_bound (win : Bool) (x : List Nat) (j : Nat)
    (h : replacedLineFeed win <+: x.drop j) :
    j + (replacedLineFeed win).length ≤ x.length := by
  have h1 := h.length_le
  have h2 := replacedLineFeed_len win
  simp at h1
  omega

/-- A pattern-free list is left unchanged by `specRewrite`. -/
theorem specRewrite_matchfree (win : Bool) :
    ∀ y, (∀ j, ¬ (replacedLineFeed win <+: y.drop j)) →
      specRewrite win y = y := by
  intro y
  induction y with
  | nil => intro _; exact specRewrite_nil win
  | cons a y' ih =>
    intro h
    rw [specRewrite_neg_cons win a y' (by simpa using h 0)]
    rw [ih (fun j => by simpa using h (j + 1))]

/-- A list shorter than the pattern is left unchanged by `specRewrite`. -/
theorem short_matchfree (win : Bool) (y : List Nat)
    (hy : y.length < (replacedLineFeed win).length) :
    specRewrite win y = y :=
  specRewrite_matchfree win y (fun j hpre => by
    have := hpre.length_le
    simp at this
    omega)

/-- Below a `findIndex` miss there is no occurrence at all. -/
theorem findIndex_none_all (win : Bool) (x : List Nat) :
    ∀ start, findIndex win x start = none →
      ∀ j, start ≤ j → ¬ (replacedLineFeed win <+: x.drop j) := by
  have H : ∀ n start, x.length - start ≤ n → findIndex win x start = none →
      ∀ j, start ≤ j → ¬ (replacedLineFeed win <+: x.drop j) := by
    intro n
    induction n with
    | zero =>
      intro start hn _ j hj hpre
      have h1 := occur_bound win x j hpre
      have h2 := replacedLineFeed_len win
      omega
    | succ n ih =>
      intro start hn h j hj hpre
      unfold findIndex at h
      by_cases hg : start + (replacedLineFeed win).length ≤ x.length
      · rw [dif_pos hg] at h
        by_cases hp : replacedLineFeed win <+: x.drop start
        · rw [if_pos hp] at h
          exact absurd h (by simp)
        · rw [if_neg hp] at h
          rcases Nat.eq_or_lt_of_le hj with rfl | hlt
          · exact hp hpre
          · exact ih (start + 1) (by omega) h j hlt hpre
      · have h1 := occur_bound win x j hpre
        omega
  exact fun start h j hj => H (x.length - start) start (le_refl _) h j hj

/-- A `findIndex` hit is an occurrence and is the leftmost one at or after
`start`. -/
theorem findIndex_some_min (win : Bool) (x : List Nat) :
    ∀ start i, findIndex win x start = some i →
      (replacedLineFeed win <+: x.drop i) ∧
      ∀ j, start ≤ j → j < i → ¬ (replacedLineFeed win <+: x.drop j) := by
  have H : ∀ n start i, x.length - start ≤ n → findIndex win x start = some i →
      (replacedLineFeed win <+: x.drop i) ∧
      ∀ j, start ≤ j → j < i → ¬ (replacedLineFeed win <+: x.drop j) := by
    intro n
    induction n with
    | zero =>
      intro start i hn h
      unfold findIndex at h
      rw [dif_neg (by have := replacedLineFeed_len win; omega)] at h
      exact absurd h (by simp)
    | succ n ih =>
      intro start i hn h
      unfold findIndex at h
      by_cases hg : start + (replacedLineFeed win).length ≤ x.length
      · rw [dif_pos hg] at h
        by_cases hp : replacedLineFeed win <+: x.drop start
        · rw [if_pos hp] at h
          injection h with h
          subst h
          exact ⟨hp, fun j hj hji => by omega⟩
        · rw [if_neg hp] at h
          obtain ⟨hocc, hmin⟩ := ih (start + 1) i (by omega) h
          refine ⟨hocc, fun j hj hji => ?_⟩
          rcases Nat.eq_or_lt_of_le hj with rfl | hlt
          · exact hp
          · exact hmin j hlt hji
      · rw [dif_neg hg] at h
        exact absurd h (by simp)
  exact fun start i h => H (x.length - start) start i (le_refl _) h

/-- A `subIdxFrom` hit: its position, its suffix-of-pattern match, and its
minimality. -/
theorem subIdxFrom_some_facts (win : Bool) (x : List Nat) :
    ∀ i0 i, subIdxFrom win x i0 = some i →
      i0 ≤ i ∧ i < x.length ∧ (x.drop i <+: replacedLineFeed win) ∧
      ∀ j, i0 ≤ j → j < i → ¬ (x.drop j <+: replacedLineFeed win) := by
  have H : ∀ n i0 i, x.length - i0 ≤ n → subIdxFrom win x i0 = some i →
      i0 ≤ i ∧ i < x.length ∧ (x.drop i <+: replacedLineFeed win) ∧
      ∀ j, i0 ≤ j → j < i → ¬ (x.drop j <+: replacedLineFeed win) := by
    intro n
    induction n with
    | zero =>
      intro i0 i hn h
      unfold subIdxFrom at h
      rw [dif_neg (by omega)] at h
      exact absurd h (by simp)
    | succ n ih =>
      intro i0 i hn h
      unfold subIdxFrom at h
      by_cases hg : i0 < x.length
      · rw [dif_pos hg] at h
        by_cases hp : x.drop i0 <+: replacedLineFeed win
        · rw [if_pos hp] at h
          injection h with h
          subst h
          exact ⟨le_refl _, hg, hp, fun j hj hji => by omega⟩
        · rw [if_neg hp] at h
          obtain ⟨h1, h2, h3, hmin⟩ := ih (i0 + 1) i (by omega) h
          refine ⟨by omega, h2, h3, fun j hj hji => ?_⟩
          rcases Nat.eq_or_lt_of_le hj with rfl | hlt
          · exact hp
          · exact hmin j hlt hji
      · rw [dif_neg hg] at h
        exact absurd h (by simp)
  exact fun i0 i h => H (x.length - i0) i0 i (le_refl _) h

/-- Below a `subIdxFrom` miss no tail matches a leading part of the
pattern. -/
theorem subIdxFrom_none_all (win : Bool) (x : List Nat) :
    ∀ i0, subIdxFrom win x i0 = none →
      ∀ j, i0 ≤ j → j < x.length → ¬ (x.drop j <+: replacedLineFeed win) := by
  have H : ∀ n i0, x.length - i0 ≤ n → subIdxFrom win x i0 = none →
      ∀ j, i0 ≤ j → j < x.length → ¬ (x.drop j <+: replacedLineFeed win) := by
    intro n
    induction n with
    | zero => intro i0 hn _ j hj hjl _; omega
    | succ n ih =>
      intro i0 hn h j hj hjl hpre
      unfold subIdxFrom at h
      by_cases hg : i0 < x.length
      · rw [dif_pos hg] at h
        by_cases hp : x.drop i0 <+: replacedLineFeed win
        · rw [if_pos hp] at h
          exact absurd h (by simp)
        · rw [if_neg hp] at h
          rcases Nat.eq_or_lt_of_le hj with rfl | hlt
          · exact hp hpre
          · exact ih (i0 + 1) (by omega) h j hlt hjl hpre
      · omega
  exact fun i0 h j hj hjl => H (x.length - i0) i0 (le_refl _) h j hj hjl

/-- Neither suffix of either corruption pattern, other than the pattern
itself, is one of its prefixes (the patterns end in 0x0A but otherwise hold
only 0x0D bytes). -/
theorem noSelfOverlap (win : Bool) :
    ∀ k, 1 ≤ k → k < (replacedLineFeed win).length →
      ¬ ((replacedLineFeed win).drop k <+: replacedLineFeed win) := by
  cases win <;> intro k h1 h2 <;> simp [replacedLineFeed] at h2 ⊢ <;>
    interval_cases k <;> decide

/-- A short enough prefix of an append is a prefix of the left part. -/
theorem pref_of_append_left {p a b : List Nat} (h : p <+: a ++ b)
    (hl : p.length ≤ a.length) : p <+: a := by
  have h1 : p = (a ++ b).take p.length := List.prefix_iff_eq_take.mp h
  rw [List.take_append_eq_append_take, Nat.sub_eq_zero_of_le hl] at h1
  simp at h1
  rw [h1]
  exact ⟨a.drop p.length, List.take_append_drop p.length a⟩

/-- If a long pattern is a prefix of `a ++ b`, the short `a` is a prefix of
the pattern. -/
theorem suffix_piece {p a b : List Nat} (h : p <+: a ++ b)
    (hl : a.length ≤ p.length) : a <+: p := by
  obtain ⟨t, ht⟩ := h
  have h1 : (p ++ t).take a.length = (a ++ b).take a.length := by rw [ht]
  rw [List.take_left] at h1
  rw [List.take_append_eq_append_take, Nat.sub_eq_zero_of_le hl] at h1
  simp at h1
  rw [← h1]
  exact ⟨p.drop a.length, List.take_append_drop a.length p⟩

/-- An occurrence of the pattern inside `x.drop j ++ r` either lies inside
`x` or spans the boundary, in which case the tail of `x` matches a leading
part of the pattern. -/
theorem occ_split (win : Bool) (x r : List Nat) (j : Nat)
    (h : replacedLineFeed win <+: x.drop j ++ r) :
    (replacedLineFeed win <+: x.drop j) ∨
    (x.length < j + (replacedLineFeed win).length ∧
      (x.drop j <+: replacedLineFeed win)) := by
  by_cases hc : (replacedLineFeed win).length ≤ x.length - j
  · exact Or.inl (pref_of_append_left h (by simp; omega))
  · exact Or.inr ⟨by omega, suffix_piece h (by simp; omega)⟩

/-- Unfolding equation of `scanMatches` when no occurrence remains. -/
theorem scanMatches_none (win : Bool) (x : List Nat) (start : Nat)
    (h : findIndex win x start = none) :
    scanMatches win x start = ([], start) := by
  unfold scanMatches
  split
  · rename_i i heq
    rw [h] at heq
    exact absurd heq (by simp)
  · rfl

/-- Unfolding equation of `scanMatches` at an occurrence. -/
theorem scanMatches_some (win : Bool) (x : List Nat) (start i : Nat)
    (h : findIndex win x start = some i) :
    scanMatches win x start =
      (slice x start i ++ originalLineFeed ++
        (scanMatches win x (i + (replacedLineFeed win).length)).1,
       (scanMatches win x (i + (replacedLineFeed win).length)).2) := by
  conv_lhs => unfold scanMatches
  split
  · rename_i j heq
    rw [h] at heq
    injection heq with heq
    subst heq
    rfl
  · rename_i heq
    rw [h] at heq
    exact absurd heq (by simp)

/-- Walking `specRewrite` over an occurrence-free stretch `[a, b)` of `x`
copies those bytes verbatim. -/
theorem specRewrite_skip (win : Bool) (x r : List Nat) :
    ∀ d a b, b - a ≤ d → a ≤ b → b ≤ x.length →
      (∀ j, a ≤ j → j < b → ¬ (replacedLineFeed win <+: x.drop j ++ r)) →
      specRewrite win (x.drop a ++ r) =
        slice x a b ++ specRewrite win (x.drop b ++ r) := by
  intro d
  induction d with
  | zero =>
    intro a b hd hab _ _
    have : a = b := by omega
    subst this
    simp [slice]
  | succ d ih =>
    intro a b hd hab hbl hno
    rcases Nat.eq_or_lt_of_le hab with rfl | hlt
    · simp [slice]
    · have hal : a < x.length := by omega
      have hcons : x.drop a = x[a] :: x.drop (a + 1) := List.drop_eq_getElem_cons hal
      have hng : ¬ (replacedLineFeed win <+: x[a] :: (x.drop (a + 1) ++ r)) := by
        have h0 := hno a (le_refl a) hlt
        rw [hcons, List.cons_append] at h0
        exact h0
      rw [hcons]
      rw [List.cons_append]
      rw [specRewrite_neg_cons win _ _ hng]
      rw [ih (a + 1) b (by omega) (by omega) hbl
        (fun j hj hb => hno j (by omega) hb)]
      have hsl : slice x a b = x[a] :: slice x (a + 1) b := by
        unfold slice
        rw [hcons]
        rw [show b - a = (b - (a + 1)) + 1 from by omega]
        rw [List.take_succ_cons]
      rw [hsl, List.cons_append]

/-- Invariant carried by the scan loop: the current position is the chunk
start, or sits right after a pattern occurrence. -/
def PrevOK (win : Bool) (x : List Nat) (start : Nat) : Prop :=
  start = 0 ∨ ((replacedLineFeed win).length ≤ start ∧
    replacedLineFeed win <+: x.drop (start - (replacedLineFeed win).length))

/-- Because neither pattern overlaps itself, the suspicious-suffix position
found by `indexOfSubpattern` never lies before the current scan position. -/
theorem subIdx_ge (win : Bool) (x : List Nat) (start i : Nat)
    (hsl : start ≤ x.length) (hprev : PrevOK win x start)
    (hsome : subIdx win x = some i) : start ≤ i := by
  by_contra hlt
  push_neg at hlt
  obtain ⟨hi0, hilen, hsuf, _⟩ := subIdxFrom_some_facts win x _ i hsome
  unfold PrevOK at hprev
  rcases hprev with rfl | ⟨hple, hpre⟩
  · omega
  · have h2 := replacedLineFeed_len win
    obtain ⟨u, hu⟩ := hpre
    have hk1 : 1 ≤ i - (start - (replacedLineFeed win).length) := by omega
    have hk2 : i - (start - (replacedLineFeed win).length) <
        (replacedLineFeed win).length := by omega
    have hdd : x.drop i =
        (replacedLineFeed win).drop (i - (start - (replacedLineFeed win).length)) ++ u := by
      have hstep : x.drop i =
          (x.drop (start - (replacedLineFeed win).length)).drop
            (i - (start - (replacedLineFeed win).length)) := by
        rw [List.drop_drop]
        congr 1
        omega
      rw [hstep, ← hu, List.drop_append_eq_append_drop]
      rw [Nat.sub_eq_zero_of_le (le_of_lt hk2), List.drop_zero]
    rw [hdd] at hsuf
    exact noSelfOverlap win _ hk1 hk2
      ((List.prefix_append _ _).trans hsuf)

/-- On the stretch `[start, b)` below both the next full occurrence and the
next suspicious suffix, no pattern occurrence starts, even one spanning into
the continuation `r`. -/
theorem noOcc_mid (win : Bool) (x r : List Nat) (start b : Nat)
    (hfi : findIndex win x start = none)
    (hb : ∀ j, x.length + 1 - (replacedLineFeed win).length ≤ j → j < x.length →
      start ≤ j → j < b → ¬ (x.drop j <+: replacedLineFeed win)) :
    ∀ j, start ≤ j → j < b → j < x.length →
      ¬ (replacedLineFeed win <+: x.drop j ++ r) := by
  intro j hj hjb hjl hocc
  rcases occ_split win x r j hocc with hin | ⟨hspan, hsuf⟩
  · exact findIndex_none_all win x start hfi j hj hin
  · exact hb j (by omega) hjl hj hjb hsuf

/-- After the scan loop exhausts the full occurrences, the source's
tail handling (hold back a suspicious suffix, else push everything)
matches `specRewrite` on the remaining bytes plus any continuation. -/
theorem tail_spec (win : Bool) (x r : List Nat) (start : Nat)
    (hsl : start ≤ x.length) (hprev : PrevOK win x start)
    (hfi : findIndex win x start = none) :
    specRewrite win (x.drop start ++ r) =
      (if start < x.length then
        match subIdx win x with
        | some i => slice x start i ++ specRewrite win (x.drop i ++ r)
        | none => x.drop start ++ specRewrite win r
      else specRewrite win r) := by
  by_cases hsx : start < x.length
  · rw [if_pos hsx]
    cases hsub : subIdx win x with
    | some i =>
      have hge := subIdx_ge win x start i hsl hprev hsub
      obtain ⟨hi0, hilen, hsuf, hmin⟩ := subIdxFrom_some_facts win x _ i hsub
      exact specRewrite_skip win x r (i - start) start i (le_refl _) hge
        (le_of_lt hilen)
        (fun j hj hji =>
          noOcc_mid win x r start i hfi
            (fun j' h1' h2' h3' h4' => hmin j' h1' h4') j hj hji (by omega))
    | none =>
      have hno := subIdxFrom_none_all win x _ hsub
      have h1 := specRewrite_skip win x r (x.length - start) start x.length
        (le_refl _) hsl (le_refl _)
        (fun j hj hjl =>
          noOcc_mid win x r start x.length hfi
            (fun j' h1' h2' h3' h4' => hno j' h1' h2') j hj hjl hjl)
      rw [h1, List.drop_length, List.nil_append]
      congr 1
      unfold slice
      exact List.take_all_of_le (by simp)
  · rw [if_neg hsx]
    have hde : x.drop start = [] := List.drop_eq_nil_of_le (by omega)
    rw [hde, List.nil_append]

/-- The scan loop, then the source's tail handling, compute `specRewrite`
of the remaining bytes followed by any continuation `r`. -/
theorem scan_spec (win : Bool) (x r : List Nat) :
    ∀ d start, x.length - start ≤ d → start ≤ x.length → PrevOK win x start →
      specRewrite win (x.drop start ++ r) =
        (scanMatches win x start).1 ++
          (if (scanMatches win x start).2 < x.length then
            match subIdx win x with
            | some i =>
              slice x (scanMatches win x start).2 i ++
                specRewrite win (x.drop i ++ r)
            | none =>
              x.drop (scanMatches win x start).2 ++ specRewrite win r
          else specRewrite win r) := by
  intro d
  induction d with
  | zero =>
    intro start hd hsl hprev
    have hfi : findIndex win x start = none := by
      unfold findIndex
      rw [dif_neg (by have := replacedLineFeed_len win; omega)]
    rw [scanMatches_none win x start hfi]
    rw [List.nil_append]
    exact tail_spec win x r start hsl hprev hfi
  | succ d ih =>
    intro start hd hsl hprev
    cases hfi : findIndex win x start with
    | none =>
      rw [scanMatches_none win x start hfi]
      rw [List.nil_append]
      exact tail_spec win x r start hsl hprev hfi
    | some i =>
      rw [scanMatches_some win x start i hfi]
      have hb := findIndex_some_bounds win x start i hfi
      obtain ⟨hpre_i, hmin⟩ := findIndex_some_min win x start i hfi
      have h2 := replacedLineFeed_len win
      rw [specRewrite_skip win x r (i - start) start i (le_refl _) (by omega)
        (by omega)
        (fun j hj hji => by
          intro hocc
          rcases occ_split win x r j hocc with hin | ⟨hspan, _⟩
          · exact hmin j hj hji hin
          · omega)]
      have hOcc : replacedLineFeed win <+: x.drop i ++ r :=
        hpre_i.trans (List.prefix_append _ _)
      rw [specRewrite_pos win _ hOcc]
      have hdr : (x.drop i ++ r).drop (replacedLineFeed win).length =
          x.drop (i + (replacedLineFeed win).length) ++ r := by
        rw [List.drop_append_eq_append_drop]
        rw [List.drop_drop]
        rw [Nat.sub_eq_zero_of_le (by simp; omega), List.drop_zero]
      rw [hdr]
      rw [ih (i + (replacedLineFeed win).length) (by omega) (by omega)
        (Or.inr ⟨by omega, by simpa using hpre_i⟩)]
      simp [List.append_assoc]

/-- One `_transform` call is a left factor of `specRewrite`: the pushed
bytes are final, and the held-back bytes are reprocessed with the rest of
the stream. -/
theorem transformStep_spec (win : Bool) (x r : List Nat) :
    specRewrite win (x ++ r) =
      (transformStep win [] x).1 ++
        specRewrite win ((transformStep win [] x).2 ++ r) := by
  have h0 := scan_spec win x r x.length 0 (by omega) (by omega) (Or.inl rfl)
  simp only [List.drop_zero] at h0
  rw [h0]
  by_cases hlt : (scanMatches win x 0).2 < x.length
  · rw [if_pos hlt]
    cases hsub : subIdx win x with
    | some i =>
      have ht : transformStep win [] x =
          ((scanMatches win x 0).1 ++ slice x (scanMatches win x 0).2 i,
           x.drop i) := by
        simp only [transformStep, List.nil_append]
        rw [if_pos hlt, hsub]
      rw [ht]
      simp [List.append_assoc]
    | none =>
      have ht : transformStep win [] x =
          ((scanMatches win x 0).1 ++ x.drop (scanMatches win x 0).2, []) := by
        simp only [transformStep, List.nil_append]
        rw [if_pos hlt, hsub]
      rw [ht]
      simp [List.append_assoc]
  · rw [if_neg hlt]
    have ht : transformStep win [] x = ((scanMatches win x 0).1, []) := by
      simp only [transformStep, List.nil_append]
      rw [if_neg hlt]
    rw [ht]
    simp

/-- The bytes held back by a `_transform` call are always strictly shorter
than the pattern. -/
theorem transformStep_held_short (win : Bool) (held c : List Nat) :
    ((transformStep win held c).2).length < (replacedLineFeed win).length := by
  have h2 := replacedLineFeed_len win
  by_cases hlt : (scanMatches win (held ++ c) 0).2 < (held ++ c).length
  · cases hsub : subIdx win (held ++ c) with
    | some i =>
      obtain ⟨hi0, hilen, _, _⟩ := subIdxFrom_some_facts win (held ++ c) _ i hsub
      simp only [transformStep, if_pos hlt, hsub]
      simp at hi0 hilen ⊢
      omega
    | none =>
      simp only [transformStep, if_pos hlt, hsub]
      simp
      omega
  · simp only [transformStep, if_neg hlt]
    simp
    omega

/-- Prepending the held-back bytes to the next chunk is the same as handing
the merged chunk to a fresh `_transform`. -/
theorem transformStep_merge (win : Bool) (held c : List Nat) :
    transformStep win held c = transformStep win [] (held ++ c) := rfl

/-- Folding `_transform` over the chunks, then flushing, computes
`specRewrite` of the concatenated bytes. -/
theorem corrector_fold (win : Bool) (cs : List (List Nat)) :
    ∀ out held, held.length < (replacedLineFeed win).length →
      ((cs.foldl (fun acc c =>
          let st := transformStep win acc.2 c
          (acc.1 ++ st.1, st.2)) (out, held)).1 ++
        (cs.foldl (fun acc c =>
          let st := transformStep win acc.2 c
          (acc.1 ++ st.1, st.2)) (out, held)).2)
      = out ++ specRewrite win (held ++ cs.flatten) := by
  induction cs with
  | nil =>
    intro out held hh
    simp only [List.foldl_nil, List.flatten_nil, List.append_nil]
    rw [short_matchfree win held hh]
  | cons c cs ih =>
    intro out held hh
    simp only [List.foldl_cons]
    have hhs := transformStep_held_short win held c
    rw [ih (out ++ (transformStep win held c).1) (transformStep win held c).2 hhs]
    rw [List.flatten_cons]
    rw [← List.append_assoc held c]
    rw [transformStep_merge win held c]
    rw [transformStep_spec win (held ++ c) cs.flatten]
    simp [List.append_assoc]

/-- The corrector computes exactly the leftmost non-overlapping rewrite of
the whole input. -/
theorem runCorrector_eq_specRewrite (win : Bool) (cs : List (List Nat)) :
    runCorrector win cs = specRewrite win cs.flatten := by
  unfold runCorrector
  have h := corrector_fold win cs [] []
    (by have := replacedLineFeed_len win; simp; omega)
  simpa using h

/-- C8: for every input byte sequence and every way of splitting it into
chunks (including splits inside a corruption-pattern occurrence), the
concatenated output of the corrector, including its end-of-stream flush of
held-back bytes, is byte-identical to its output on the same bytes as one
single chunk, and that output equals the input with every non-overlapping
occurrence of the platform corruption pattern (CR LF, or CR CR LF on
Windows) replaced by exactly one original line-feed byte, all other bytes
preserved (`specRewrite` being the rewrite described by the specification's
words). -/
theorem c8_corrector_round_trip (win : Bool) (cs : List (List Nat)) :
    runCorrector win cs = runCorrector win [cs.flatten] ∧
    runCorrector win cs = specRewrite win cs.flatten := by
  constructor
  · rw [runCorrector_eq_specRewrite win cs,
      runCorrector_eq_specRewrite win [cs.flatten]]
    simp
  · exact runCorrector_eq_specRewrite win cs

end LineFeed
